import Mathlib

/-!
Verification of the timeline layout core of the `sf_history` repository.

The source is JavaScript (`js/utils.js` and `js/timeline.js`).  The shallow
embedding below models:

* JavaScript numbers as exact rationals extended with `NaN`, `+Infinity` and
  `-Infinity` (`JsNum`).  Double rounding is not modelled: all arithmetic the
  layout core performs on realistic year data is exact in doubles.
* JavaScript strings as Lean `String`s; `split('-')`, `toLowerCase()`,
  `includes(...)` and `parseInt(..., 10)` are re-implemented on character
  lists (`splitDash`, `toLowerJs`, `hasSub`, `parseIntChars`).
* `Array.prototype.sort` (a stable comparison sort) as a stable insertion
  sort (`sortLE`); the comparator `a - b` yields `NaN` for unparseable
  periods, which ECMAScript's `SortCompare` treats as `+0`.
* The in-place `lane` annotation of `assignLanes` (the sorted copy shares
  the record identities of the original array) by computing, per original
  index, the lane assigned while scanning in sorted order, and attaching it
  to the records in original order.
* The DOM bar lookup of `drawConnections` as an abstract
  `findBar : String → Option Rect` function.
-/

/-- A JavaScript number: `NaN`, the two infinities, or a finite value
(modelled as an exact rational). -/
inductive JsNum where
  | nan : JsNum
  | posInf : JsNum
  | negInf : JsNum
  | num : ℚ → JsNum
deriving DecidableEq

namespace JsNum

/-- JavaScript `<=`: any comparison with `NaN` is false. -/
def jsLe : JsNum → JsNum → Bool
  | .nan, _ => false
  | _, .nan => false
  | .negInf, _ => true
  | _, .posInf => true
  | .posInf, _ => false
  | _, .negInf => false
  | .num a, .num b => a ≤ b

/-- JavaScript `<`: any comparison with `NaN` is false. -/
def jsLt : JsNum → JsNum → Bool
  | .nan, _ => false
  | _, .nan => false
  | .posInf, _ => false
  | _, .negInf => false
  | .negInf, _ => true
  | _, .posInf => true
  | .num a, .num b => a < b

/-- JavaScript `Math.min` (the `-0` distinction is not modelled). -/
def jsMin : JsNum → JsNum → JsNum
  | .nan, _ => .nan
  | _, .nan => .nan
  | .negInf, _ => .negInf
  | _, .negInf => .negInf
  | .posInf, b => b
  | a, .posInf => a
  | .num a, .num b => .num (min a b)

/-- JavaScript `Math.max`. -/
def jsMax : JsNum → JsNum → JsNum
  | .nan, _ => .nan
  | _, .nan => .nan
  | .posInf, _ => .posInf
  | _, .posInf => .posInf
  | .negInf, b => b
  | a, .negInf => a
  | .num a, .num b => .num (max a b)

/-- JavaScript addition. -/
def jsAdd : JsNum → JsNum → JsNum
  | .nan, _ => .nan
  | _, .nan => .nan
  | .posInf, .negInf => .nan
  | .negInf, .posInf => .nan
  | .posInf, _ => .posInf
  | _, .posInf => .posInf
  | .negInf, _ => .negInf
  | _, .negInf => .negInf
  | .num a, .num b => .num (a + b)

/-- JavaScript subtraction. -/
def jsSub : JsNum → JsNum → JsNum
  | .nan, _ => .nan
  | _, .nan => .nan
  | .posInf, .posInf => .nan
  | .negInf, .negInf => .nan
  | .posInf, _ => .posInf
  | .negInf, _ => .negInf
  | .num _, .posInf => .negInf
  | .num _, .negInf => .posInf
  | .num a, .num b => .num (a - b)

/-- JavaScript multiplication. -/
def jsMul : JsNum → JsNum → JsNum
  | .nan, _ => .nan
  | _, .nan => .nan
  | .posInf, .posInf => .posInf
  | .posInf, .negInf => .negInf
  | .negInf, .posInf => .negInf
  | .negInf, .negInf => .posInf
  | .posInf, .num b => if 0 < b then .posInf else if b < 0 then .negInf else .nan
  | .negInf, .num b => if 0 < b then .negInf else if b < 0 then .posInf else .nan
  | .num a, .posInf => if 0 < a then .posInf else if a < 0 then .negInf else .nan
  | .num a, .negInf => if 0 < a then .negInf else if a < 0 then .posInf else .nan
  | .num a, .num b => .num (a * b)

/-- JavaScript division (the zero here is JavaScript's `+0`). -/
def jsDiv : JsNum → JsNum → JsNum
  | .nan, _ => .nan
  | _, .nan => .nan
  | .posInf, .posInf => .nan
  | .posInf, .negInf => .nan
  | .negInf, .posInf => .nan
  | .negInf, .negInf => .nan
  | .posInf, .num b => if b < 0 then .negInf else .posInf
  | .negInf, .num b => if b < 0 then .posInf else .negInf
  | .num _, .posInf => .num 0
  | .num _, .negInf => .num 0
  | .num a, .num b =>
      if b = 0 then (if a = 0 then .nan else if 0 < a then .posInf else .negInf)
      else .num (a / b)

/-- JavaScript `Math.floor`. -/
def jsFloor : JsNum → JsNum
  | .nan => .nan
  | .posInf => .posInf
  | .negInf => .negInf
  | .num a => .num (⌊a⌋ : ℤ)

/-- JavaScript `Math.ceil`. -/
def jsCeil : JsNum → JsNum
  | .nan => .nan
  | .posInf => .posInf
  | .negInf => .negInf
  | .num a => .num (⌈a⌉ : ℤ)

end JsNum

open JsNum

/-! ### String helpers (JavaScript string methods on character lists) -/

/-- JavaScript `String.prototype.split('-')`: cut the character list at every
dash; `""` splits to `[""]`, `"-"` splits to `["", ""]`. -/
def splitDash : List Char → List (List Char)
  | [] => [[]]
  | c :: rest =>
    match splitDash rest with
    | h :: t => if c = '-' then [] :: h :: t else (c :: h) :: t
    | [] => [[c]]

/-- Simple lowercasing of one character, covering ASCII and the Latin-1
letters (so that `'É'` lowers to `'é'`), as JavaScript `toLowerCase` does on
the period strings this repository uses. -/
def charToLowerJs (c : Char) : Char :=
  if ('A' ≤ c ∧ c ≤ 'Z') ∨ ('À' ≤ c ∧ c ≤ 'Þ' ∧ c ≠ '×') then
    Char.ofNat (c.toNat + 32)
  else c

/-- JavaScript `String.prototype.toLowerCase` on a character list. -/
def toLowerJs (cs : List Char) : List Char := cs.map charToLowerJs

/-- Whether `pat` occurs at the head of `cs`. -/
def headMatches : List Char → List Char → Bool
  | _, [] => true
  | [], _ :: _ => false
  | a :: as, b :: bs => a = b && headMatches as bs

/-- JavaScript `String.prototype.includes`: substring occurrence. -/
def hasSub : List Char → List Char → Bool
  | [], pat => pat.isEmpty
  | c :: rest, pat => headMatches (c :: rest) pat || hasSub rest pat

/-- JavaScript whitespace recognized by `parseInt` (ASCII subset). -/
def isSpaceJs (c : Char) : Bool :=
  c = ' ' || c = '\t' || c = '\n' || c = '\r'

/-- Decimal digit test. -/
def isDigitChar (c : Char) : Bool := '0' ≤ c && c ≤ '9'

/-- Numeric value of a decimal digit prefix. -/
def digitsToNat (cs : List Char) : ℕ :=
  cs.foldl (fun a c => 10 * a + (c.toNat - 48)) 0

/-- JavaScript `parseInt(s, 10)`: skip leading whitespace, read an optional
sign, then the longest prefix of decimal digits; `NaN` if there is none. -/
def parseIntChars (cs : List Char) : JsNum :=
  let cs := cs.dropWhile isSpaceJs
  let signed : Bool × List Char :=
    match cs with
    | '-' :: rest => (true, rest)
    | '+' :: rest => (false, rest)
    | _ => (false, cs)
  let digits := signed.2.takeWhile isDigitChar
  if digits.isEmpty then .nan
  else if signed.1 then .num (-(digitsToNat digits : ℤ) : ℤ)
  else .num ((digitsToNat digits : ℤ) : ℚ)

/-! ### `parsePeriod` (utils.js lines 11-27) -/

/-- Result of `parsePeriod`: the source calls the fields `start` and `end`;
`end` is a reserved word in Lean, so the second field is named `stop`. -/
structure ParsedPeriod where
  start : JsNum
  stop : JsNum
deriving DecidableEq

/-- The characters of `"présent"`. -/
def presentFr : List Char := "présent".data

/-- The characters of `"present"`. -/
def presentEn : List Char := "present".data

/-- `parsePeriod(period)` from utils.js.  `currentYear` stands for
`new Date().getFullYear()`; a `null`/`undefined`/empty period (all falsy) is
modelled by the empty string. -/
def parsePeriod (currentYear : ℤ) (period : String) : ParsedPeriod :=
  if period = "" then { start := .num 2000, stop := .num 2025 }
  else
    let parts := splitDash period.data
    let start := parseIntChars (parts.headD [])
    match parts.get? 1 with
    | some p2 =>
        if !p2.isEmpty &&
            (hasSub (toLowerJs p2) presentFr || hasSub (toLowerJs p2) presentEn) then
          { start := start, stop := .num (currentYear : ℚ) }
        else if !p2.isEmpty then { start := start, stop := parseIntChars p2 }
        else { start := start, stop := jsAdd start (.num 10) }
    | none => { start := start, stop := jsAdd start (.num 10) }

example : parsePeriod 2025 "1818-1920" = ⟨.num 1818, .num 1920⟩ := by decide
example : parsePeriod 2025 "2000-présent" = ⟨.num 2000, .num 2025⟩ := by decide
example : parsePeriod 2025 "" = ⟨.num 2000, .num 2025⟩ := by decide

/-! ### Data model -/

/-- A connection entry `{to, desc}` of a movement's `connections` object. -/
structure ConnRef where
  toId : String
  desc : String
deriving DecidableEq

/-- A movement record, restricted to the fields the layout core reads or
writes.  `connections` models the object as its `Object.entries` list
(relation kind, targets); `lane` is absent (`none`) until `assignLanes`
attaches it. -/
structure Movement where
  id : String
  title : String
  description : String
  period : String
  connections : List (String × List ConnRef)
  lane : Option ℕ
deriving DecidableEq

/-! ### `getYearRange` (utils.js lines 34-49) -/

/-- Result record of `getYearRange`. -/
structure YearRange where
  minYear : JsNum
  maxYear : JsNum
deriving DecidableEq

/-- One step of the `movements.forEach` loop in `getYearRange`: update the
running `(minYear, maxYear)` accumulators. -/
def rangeStep (y : ℤ) (acc : JsNum × JsNum) (m : Movement) : JsNum × JsNum :=
  let p := parsePeriod y m.period
  (jsMin acc.1 p.start, jsMax acc.2 p.stop)

/-- `getYearRange(movements)` from utils.js: fold min of starts and max of
ends from `Infinity` / `-Infinity`, then round outward to decades via
`Math.floor(min / 10) * 10` and `Math.ceil(max / 10) * 10`. -/
def getYearRange (y : ℤ) (ms : List Movement) : YearRange :=
  let acc := ms.foldl (rangeStep y) (.posInf, .negInf)
  { minYear := jsMul (jsFloor (jsDiv acc.1 (.num 10))) (.num 10)
    maxYear := jsMul (jsCeil (jsDiv acc.2 (.num 10))) (.num 10) }

/-! ### Sorting and indexing infrastructure for `assignLanes` -/

/-- Stable insertion of `x` into `l`: `x` goes before the first element `b`
with `le x b`. -/
def insertLE {α : Type} (le : α → α → Bool) (x : α) : List α → List α
  | [] => [x]
  | b :: l => if le x b then x :: b :: l else b :: insertLE le x l

/-- Stable insertion sort, modelling JavaScript's stable
`Array.prototype.sort`. -/
def sortLE {α : Type} (le : α → α → Bool) : List α → List α
  | [] => []
  | a :: l => insertLE le a (sortLE le l)

/-- Pair each element with its position, starting at `n`. -/
def idxFrom {α : Type} (n : ℕ) : List α → List (ℕ × α)
  | [] => []
  | a :: l => (n, a) :: idxFrom (n + 1) l

/-- First value bound to key `i` in an association list. -/
def lookupIdx (i : ℕ) : List (ℕ × ℕ) → Option ℕ
  | [] => none
  | (j, k) :: l => if i = j then some k else lookupIdx i l

/-- The comparator `parsePeriod(a).start - parsePeriod(b).start` of the sort
in `assignLanes`, as a "should `a` come no later than `b`" test: ECMAScript's
`SortCompare` maps a `NaN` comparator result to `+0`, so any comparison
involving an unparseable start keeps the relative order. -/
def sortKeyLe (a b : JsNum) : Bool :=
  match a, b with
  | .num x, .num y => x ≤ y
  | _, _ => true

/-! ### `assignLanes` (utils.js lines 57-92) -/

/-- The scan `for (let i = 0; i < lanes.length; i++) if (lanes[i] <= start)`:
index of the first lane whose recorded end is `<=` the new start. -/
def findLane (lanes : List JsNum) (s : JsNum) : Option ℕ :=
  match lanes with
  | [] => none
  | e :: rest => if jsLe e s then some 0 else (findLane rest s).map (· + 1)

/-- The `sorted.forEach` loop of `assignLanes`, on (original index, period)
pairs: returns the `(index, lane)` assignments in processing order together
with the final `lanes` array. -/
def fillLanesP (y : ℤ) : List (ℕ × String) → List JsNum → List (ℕ × ℕ) × List JsNum
  | [], lanes => ([], lanes)
  | (i, s) :: rest, lanes =>
    let p := parsePeriod y s
    match findLane lanes p.start with
    | some k =>
        let r := fillLanesP y rest (lanes.set k p.stop)
        ((i, k) :: r.1, r.2)
    | none =>
        let r := fillLanesP y rest (lanes ++ [p.stop])
        ((i, lanes.length) :: r.1, r.2)

/-- The sorted copy `[...movements].sort(...)` of `assignLanes`, tracking each
record by its original index (the JavaScript sort moves object references;
the original array keeps them in input order). -/
def sortedPeriods (y : ℤ) (ps : List String) : List (ℕ × String) :=
  sortLE (fun a b => sortKeyLe (parsePeriod y a.2).start (parsePeriod y b.2).start)
    (idxFrom 0 ps)

/-- Lane assigned to each original index by the `assignLanes` scan. -/
def laneMap (y : ℤ) (ps : List String) : List (ℕ × ℕ) :=
  (fillLanesP y (sortedPeriods y ps) []).1

/-- `assignLanes(movements)` from utils.js: every record of the input list,
in input order, with the lane computed by the greedy scan attached
(`movement.lane = assignedLane` mutates the records shared between the
sorted copy and the original array; the scan assigns every index exactly
once, so the `getD 0` default is never consulted). -/
def assignLanes (y : ℤ) (ms : List Movement) : List Movement :=
  let asg := laneMap y (ms.map (fun m => m.period))
  (idxFrom 0 ms).map (fun im => { im.2 with lane := some ((lookupIdx im.1 asg).getD 0) })

/-- Number of lanes opened by `assignLanes` (the final `lanes.length`). -/
def numLanes (y : ℤ) (ms : List Movement) : ℕ :=
  (fillLanesP y (sortedPeriods y (ms.map (fun m => m.period))) []).2.length

/-! ### `generateDecades` (utils.js lines 100-106) -/

/-- The loop `for (let year = minYear; year <= maxYear; year += 10)`. -/
def decadesFrom (maxYear : ℤ) (year : ℤ) : List ℤ :=
  if h : year ≤ maxYear then year :: decadesFrom maxYear (year + 10) else []
termination_by (maxYear + 10 - year).toNat
decreasing_by omega

/-- `generateDecades(minYear, maxYear)` from utils.js. -/
def generateDecades (minYear maxYear : ℤ) : List ℤ :=
  decadesFrom maxYear minYear

/-! ### `yearToPosition` (utils.js lines 115-119) -/

/-- `yearToPosition(year, minYear, maxYear)` from utils.js:
`(year - minYear) / (maxYear - minYear) * 100`, with no guard on a zero
range. -/
def yearToPosition (year minYear maxYear : JsNum) : JsNum :=
  let range := jsSub maxYear minYear
  let offset := jsSub year minYear
  jsMul (jsDiv offset range) (.num 100)

/-! ### `drawConnections` (timeline.js lines 257-320) -/

/-- A bounding rectangle, as returned by `getBoundingClientRect` (only the
fields the renderer reads). -/
structure Rect where
  left : ℚ
  right : ℚ
  top : ℚ
  height : ℚ
deriving DecidableEq

/-- One rendered connection edge: endpoints in container-local coordinates,
relation kind, source/target ids, and whether it is highlighted as part of
the current selection. -/
structure Edge where
  ctype : String
  fromId : String
  toId : String
  fromX : ℚ
  fromY : ℚ
  toX : ℚ
  toY : ℚ
  active : Bool
deriving DecidableEq

/-- Build the edge drawn for one `(movement, connection)` pair whose two bars
were found: from the right-center of the source bar to the left-center of the
target bar, relative to the container. -/
def mkEdge (container : Rect) (ty mid cto : String) (sel : Option String)
    (fr tr : Rect) : Edge :=
  { ctype := ty
    fromId := mid
    toId := cto
    fromX := fr.right - container.left
    fromY := fr.top + fr.height / 2 - container.top
    toX := tr.left - container.left
    toY := tr.top + tr.height / 2 - container.top
    active :=
      match sel with
      | some s => decide (s = mid) || decide (s = cto)
      | none => false }

/-- `drawConnections(movements)` from timeline.js, with the DOM abstracted:
`findBar` is `document.querySelector` on `data-id`, `container` the common
ancestor rectangle, `sel` the module-level `currentSelection`.  A pair whose
source or target bar is not found contributes nothing (`if (!fromBar ||
!toBar) return;`). -/
def drawConnections (findBar : String → Option Rect) (container : Rect)
    (sel : Option String) (ms : List Movement) : List Edge :=
  ms.flatMap (fun m =>
    m.connections.flatMap (fun tc =>
      tc.2.flatMap (fun c =>
        match findBar m.id, findBar c.toId with
        | some fr, some tr => [mkEdge container tc.1 m.id c.toId sel fr tr]
        | _, _ => [])))

/-! ### Specification-side definitions used to state the claims -/

/-- Parsed start year of a movement's period as a rational (`0` when the
parse is not a finite number; the claims always supply a parse hypothesis
that rules that out). -/
def pqStart (y : ℤ) (s : String) : ℚ :=
  match (parsePeriod y s).start with
  | .num q => q
  | _ => 0

/-- Parsed end year of a movement's period as a rational. -/
def pqStop (y : ℤ) (s : String) : ℚ :=
  match (parsePeriod y s).stop with
  | .num q => q
  | _ => 0

/-- Number of movements whose half-open `[start, end)` interval contains the
point `p`. -/
def cliqueCount (y : ℤ) (ms : List Movement) (p : ℚ) : ℕ :=
  ((ms.map (fun m => (pqStart y m.period, pqStop y m.period))).filter
    (fun q => decide (q.1 ≤ p) && decide (p < q.2))).length

/-! ### Claim C4: the linear map and its strict monotonicity -/

/-- C4.  `yearToPosition(year, minYear, maxYear)` equals
`(year - minYear) / (maxYear - minYear) * 100` exactly, and is strictly
monotone in the year whenever `minYear < maxYear` (finite numbers are
modelled as exact rationals). -/
theorem yearToPosition_linear_strictMono (y1 y2 mn mx : ℚ) (h : mn < mx) :
    yearToPosition (.num y1) (.num mn) (.num mx) = .num ((y1 - mn) / (mx - mn) * 100) ∧
    (y1 < y2 →
      jsLt (yearToPosition (.num y1) (.num mn) (.num mx))
        (yearToPosition (.num y2) (.num mn) (.num mx)) = true) := by
  have hr : mx - mn ≠ 0 := sub_ne_zero.mpr (ne_of_gt h)
  have hpos : (0:ℚ) < mx - mn := sub_pos.mpr h
  constructor
  · simp [yearToPosition, jsSub, jsDiv, jsMul, hr]
  · intro hlt
    simp only [yearToPosition, jsSub, jsDiv, jsMul, if_neg hr, jsLt]
    rw [decide_eq_true_iff]
    have hdiv : (y1 - mn) / (mx - mn) < (y2 - mn) / (mx - mn) :=
      (div_lt_div_iff_of_pos_right hpos).mpr (by linarith)
    exact mul_lt_mul_of_pos_right hdiv (by norm_num)

/-- C4 witness (Scenario D): `yearToPosition(1910, 1810, 2030)` is exactly
`(1910 - 1810) / (2030 - 1810) * 100 = 500/11 ≈ 45.45`, and `1910 ↦ 1920`
moves strictly right. -/
theorem yearToPosition_linear_strictMono_witness :
    yearToPosition (.num 1910) (.num 1810) (.num 2030) = .num (500 / 11) ∧
    jsLt (yearToPosition (.num 1910) (.num 1810) (.num 2030))
      (yearToPosition (.num 1920) (.num 1810) (.num 2030)) = true := by
  have h := yearToPosition_linear_strictMono 1910 1920 1810 2030 (by norm_num)
  refine ⟨h.1.trans ?_, h.2 (by norm_num)⟩
  norm_num

/-! ### Claim C10: degenerate range -/

/-- C10.  `yearToPosition` divides by `maxYear - minYear` with no guard: when
`minYear = maxYear` it returns `NaN` for `year = minYear` and `±Infinity`
otherwise (no error is raised; the function is total). -/
theorem yearToPosition_degenerate (yq m : ℚ) :
    yearToPosition (.num yq) (.num m) (.num m) =
      if yq = m then .nan else if m < yq then .posInf else .negInf := by
  rcases lt_trichotomy yq m with hlt | heq | hgt
  · have h1 : yq - m ≠ 0 := sub_ne_zero.mpr (ne_of_lt hlt)
    have h2 : ¬ (0 < yq - m) := by linarith
    simp [yearToPosition, jsSub, jsDiv, jsMul, h1, h2, ne_of_lt hlt, not_lt_of_lt hlt]
  · simp [yearToPosition, heq, jsSub, jsDiv, jsMul]
  · have h1 : yq - m ≠ 0 := sub_ne_zero.mpr (ne_of_gt hgt)
    have h2 : 0 < yq - m := by linarith
    simp [yearToPosition, jsSub, jsDiv, jsMul, h1, h2, ne_of_gt hgt, hgt]

/-! ### Claim C7: `generateDecades` -/

/-- The loop of `generateDecades` produces the arithmetic progression with
step 10 when the span is an exact multiple of 10. -/
theorem decadesFrom_arith : ∀ (n : ℕ) (minY maxY : ℤ), maxY - minY = 10 * n →
    decadesFrom maxY minY = (List.range (n + 1)).map (fun k : ℕ => minY + 10 * (k : ℤ)) := by
  intro n
  induction n with
  | zero =>
    intro minY maxY h
    rw [decadesFrom, dif_pos (by omega : minY ≤ maxY), decadesFrom, dif_neg (by omega)]
    simp [List.range_succ]
  | succ n ih =>
    intro minY maxY h
    rw [decadesFrom, dif_pos (by omega : minY ≤ maxY), ih (minY + 10) maxY (by omega)]
    nth_rewrite 2 [List.range_succ_eq_map]
    rw [List.map_cons, List.map_map]
    congr 1
    · simp
    · apply List.map_congr_left
      intro a _
      simp only [Function.comp_apply]
      push_cast
      ring

/-- C7 (amended).  For integers `minYear ≤ maxYear` whose difference is a
multiple of 10 (the only ranges `getYearRange` produces), `generateDecades`
returns the ascending arithmetic sequence `minYear, minYear+10, ...,
maxYear`, ending inclusively at `maxYear`. -/
theorem generateDecades_decade_sequence (minY maxY : ℤ) (h : minY ≤ maxY)
    (hd : (10:ℤ) ∣ (maxY - minY)) :
    generateDecades minY maxY =
      (List.range ((maxY - minY).toNat / 10 + 1)).map (fun k : ℕ => minY + 10 * (k : ℤ)) ∧
    (generateDecades minY maxY).getLast? = some maxY := by
  obtain ⟨n, hn⟩ := hd
  have hn0 : 0 ≤ n := by omega
  have h10 : maxY - minY = 10 * (n.toNat : ℤ) := by omega
  have h1 := decadesFrom_arith n.toNat minY maxY (by exact_mod_cast h10)
  have hN : (maxY - minY).toNat / 10 + 1 = n.toNat + 1 := by omega
  constructor
  · rw [generateDecades, h1, hN]
  · rw [generateDecades, h1, List.range_succ, List.map_append, List.map_cons, List.map_nil,
      List.getLast?_concat]
    congr 1
    omega

/-- C7 counterexample: at `(minYear, maxYear) = (0, 5)` the loop returns
`[0]`, which does not end at `maxYear = 5`, so the unrestricted claim fails
for spans that are not multiples of 10. -/
theorem generateDecades_cex :
    generateDecades 0 5 = [0] ∧ (generateDecades 0 5).getLast? ≠ some 5 := by
  have h : generateDecades 0 5 = [0] := by
    rw [generateDecades, decadesFrom, dif_pos (by norm_num), decadesFrom, dif_neg (by norm_num)]
  exact ⟨h, by rw [h]; decide⟩

/-- C7 witness: the range `1810..2030` produced by Scenario C yields the 23
decade marks `1810, 1820, ..., 2030`. -/
theorem generateDecades_decade_sequence_witness :
    generateDecades 1810 2030 =
      [1810, 1820, 1830, 1840, 1850, 1860, 1870, 1880, 1890, 1900, 1910, 1920,
       1930, 1940, 1950, 1960, 1970, 1980, 1990, 2000, 2010, 2020, 2030] ∧
    (generateDecades 1810 2030).getLast? = some 2030 := by
  have h := generateDecades_decade_sequence 1810 2030 (by norm_num) (by norm_num)
  exact ⟨h.1.trans (by decide), h.2⟩

/-! ### Claim C6: "présent"/"present" periods end at the current year -/

/-- C6.  If the part after the first `-` contains `"présent"` or
`"present"` case-insensitively, `parsePeriod` returns the current calendar
year as `end`, with `start` parsed from the first part. -/
theorem parsePeriod_present (y : ℤ) (s : String) (p2 : List Char)
    (h2 : (splitDash s.data).get? 1 = some p2)
    (hpres : hasSub (toLowerJs p2) presentFr = true ∨ hasSub (toLowerJs p2) presentEn = true) :
    parsePeriod y s =
      { start := parseIntChars ((splitDash s.data).headD []), stop := .num (y : ℚ) } := by
  have hs : s ≠ "" := by
    intro he
    subst he
    have hnone : (splitDash ("" : String).data).get? 1 = none := by decide
    rw [hnone] at h2
    cases h2
  have hne : p2.isEmpty = false := by
    cases p2 with
    | nil =>
      exfalso
      rcases hpres with h | h <;> revert h <;> decide
    | cons a l => rfl
  have hcond : (!p2.isEmpty &&
      (hasSub (toLowerJs p2) presentFr || hasSub (toLowerJs p2) presentEn)) = true := by
    rcases hpres with h | h <;> simp [hne, h]
  rw [parsePeriod, if_neg hs]
  simp only [h2, hcond, if_true]

/-- C6 witness (Scenario B): `"2000-présent"` evaluated in year 2025 parses
to `{start: 2000, end: 2025}`. -/
theorem parsePeriod_present_witness :
    parsePeriod 2025 "2000-présent" = { start := .num 2000, stop := .num 2025 } := by
  have h := parsePeriod_present 2025 "2000-présent" "présent".data (by decide)
    (Or.inl (by decide))
  exact h.trans (by decide)

/-! ### Claim C9: `drawConnections` skips edges with missing bars -/

/-- C9.  An edge is drawn for exactly those `(movement, connection)` pairs
whose source and target bars are both found: a pair with a missing bar is
silently omitted (the function is total, so no error interrupts the pass),
and every pair with both bars present still produces its edge. -/
theorem drawConnections_skips_missing (findBar : String → Option Rect)
    (container : Rect) (sel : Option String) (ms : List Movement) :
    (∀ m ∈ ms, ∀ tc ∈ m.connections, ∀ c ∈ tc.2, ∀ fr tr : Rect,
      findBar m.id = some fr → findBar c.toId = some tr →
      mkEdge container tc.1 m.id c.toId sel fr tr ∈
        drawConnections findBar container sel ms) ∧
    (∀ e ∈ drawConnections findBar container sel ms,
      ∃ m ∈ ms, ∃ tc ∈ m.connections, ∃ c ∈ tc.2, ∃ fr tr : Rect,
        findBar m.id = some fr ∧ findBar c.toId = some tr ∧
        e = mkEdge container tc.1 m.id c.toId sel fr tr) := by
  constructor
  · intro m hm tc htc c hc fr tr hfr htr
    simp only [drawConnections, List.mem_flatMap]
    refine ⟨m, hm, tc, htc, c, hc, ?_⟩
    rw [hfr, htr]
    simp
  · intro e he
    simp only [drawConnections, List.mem_flatMap] at he
    obtain ⟨m, hm, tc, htc, c, hc, hmem⟩ := he
    refine ⟨m, hm, tc, htc, c, hc, ?_⟩
    cases hfr : findBar m.id with
    | none => rw [hfr] at hmem; simp at hmem
    | some fr =>
      cases htr : findBar c.toId with
      | none => rw [hfr, htr] at hmem; simp at hmem
      | some tr =>
        rw [hfr, htr] at hmem
        simp only [List.mem_singleton] at hmem
        exact ⟨fr, tr, rfl, rfl, hmem⟩

/-- Source bar rectangle used in the C9 witness scenario. -/
def rectA : Rect := { left := 10, right := 50, top := 0, height := 60 }

/-- Target bar rectangle used in the C9 witness scenario. -/
def rectB : Rect := { left := 100, right := 150, top := 70, height := 60 }

/-- Container rectangle used in the C9 witness scenario. -/
def rectCont : Rect := { left := 0, right := 300, top := 0, height := 200 }

/-- Rendered-bar lookup for the C9 witness: only bars `"a"` and `"b"` exist. -/
def findBarW : String → Option Rect := fun s =>
  if s = "a" then some rectA else if s = "b" then some rectB else none

/-- Movement for the C9 witness: one connection to the rendered bar `"b"`
and one to the absent id `"missing"`. -/
def movW : Movement :=
  { id := "a", title := "A", description := "", period := "1920-1960",
    connections := [("influence", [{ toId := "b", desc := "x" },
                                   { toId := "missing", desc := "y" }])],
    lane := none }

/-- C9 witness: with the target of the second connection absent from the
rendered bar set, the edge to `"b"` is still drawn. -/
theorem drawConnections_skips_missing_witness :
    mkEdge rectCont "influence" "a" "b" none rectA rectB ∈
      drawConnections findBarW rectCont none [movW] := by
  exact (drawConnections_skips_missing findBarW rectCont none [movW]).1
    movW (by decide)
    ("influence", [{ toId := "b", desc := "x" }, { toId := "missing", desc := "y" }]) (by decide)
    { toId := "b", desc := "x" } (by decide)
    rectA rectB (by decide) (by decide)

/-! ### Claim C8: `assignLanes` returns the same records in input order -/

/-- Length of an index-tagged list. -/
theorem idxFrom_length {α : Type} (n : ℕ) (l : List α) :
    (idxFrom n l).length = l.length := by
  induction l generalizing n with
  | nil => rfl
  | cons a l ih => simp [idxFrom, ih]

/-- Entry `i` of an index-tagged list. -/
theorem idxFrom_get {α : Type} : ∀ (l : List α) (n i : ℕ) (h : i < l.length)
    (h2 : i < (idxFrom n l).length),
    (idxFrom n l).get ⟨i, h2⟩ = (n + i, l.get ⟨i, h⟩) := by
  intro l
  induction l with
  | nil => intro n i h h2; cases h
  | cons a l ih =>
    intro n i h h2
    cases i with
    | zero => simp [idxFrom]
    | succ i =>
      simp only [idxFrom, List.get_cons_succ]
      rw [ih (n + 1) i (by simpa using h) (by simpa [idxFrom_length] using h2)]
      congr 1
      omega

/-- C8.  `assignLanes` returns a list of the same length, in the original
input order, where entry `i` is exactly input record `i` with a lane
attached and every other field unchanged. -/
theorem assignLanes_same_records (y : ℤ) (ms : List Movement) :
    (assignLanes y ms).length = ms.length ∧
    ∀ (i : ℕ) (hi : i < (assignLanes y ms).length) (h : i < ms.length),
      ∃ k : ℕ, (assignLanes y ms).get ⟨i, hi⟩ = { ms.get ⟨i, h⟩ with lane := some k } := by
  have hlen : (assignLanes y ms).length = ms.length := by
    simp [assignLanes, idxFrom_length]
  refine ⟨hlen, ?_⟩
  intro i hi h
  refine ⟨(lookupIdx i (laneMap y (ms.map (fun m => m.period)))).getD 0, ?_⟩
  have h2 : i < (idxFrom 0 ms).length := by simpa [idxFrom_length] using h
  simp only [assignLanes, List.get_eq_getElem, List.getElem_map]
  have := idxFrom_get ms 0 i h h2
  simp only [List.get_eq_getElem] at this
  rw [this]
  simp

/-- Scenario A, movement 1 (period `1818-1920`). -/
def movA1 : Movement :=
  { id := "m1", title := "M1", description := "", period := "1818-1920",
    connections := [], lane := none }

/-- Scenario A, movement 2 (period `1920-1960`). -/
def movA2 : Movement :=
  { id := "m2", title := "M2", description := "", period := "1920-1960",
    connections := [], lane := none }

/-- Scenario A, movement 3 (period `1950-1980`). -/
def movA3 : Movement :=
  { id := "m3", title := "M3", description := "", period := "1950-1980",
    connections := [], lane := none }

/-- Scenario A movement list. -/
def scenarioA : List Movement := [movA1, movA2, movA3]

example : assignLanes 2025 scenarioA =
    [{ movA1 with lane := some 0 }, { movA2 with lane := some 0 },
     { movA3 with lane := some 1 }] := by decide

/-- C8 witness: on Scenario A, record 0 of the output is record 0 of the
input with a lane attached and all other fields unchanged. -/
theorem assignLanes_same_records_witness :
    (assignLanes 2025 scenarioA).length = scenarioA.length ∧
    ∃ k : ℕ, (assignLanes 2025 scenarioA).get ⟨0, by decide⟩ =
      { scenarioA.get ⟨0, by decide⟩ with lane := some k } := by
  have h := assignLanes_same_records 2025 scenarioA
  exact ⟨h.1, h.2 0 (by decide) (by decide)⟩

/-! ### Claim C5: the layout pass is idempotent -/

/-- Mapping records through an index-tagged lane attachment preserves the
period of every record, in order. -/
theorem map_period_idxFrom_map (v : ℕ → ℕ) :
    ∀ (l : List Movement) (n : ℕ),
    (((idxFrom n l).map (fun im => { im.2 with lane := some (v im.1) })).map
      (fun m => m.period)) = l.map (fun m => m.period) := by
  intro l
  induction l with
  | nil => intro n; rfl
  | cons a l ih => intro n; simp [idxFrom, ih (n + 1)]

/-- `assignLanes` leaves the period list unchanged. -/
theorem assignLanes_map_period (y : ℤ) (ms : List Movement) :
    (assignLanes y ms).map (fun m => m.period) = ms.map (fun m => m.period) := by
  rw [assignLanes]
  exact map_period_idxFrom_map
    (fun i => (lookupIdx i (laneMap y (ms.map (fun m => m.period)))).getD 0) ms 0

/-- The fold inside `getYearRange` depends only on the period strings. -/
theorem foldl_rangeStep_congr (y : ℤ) :
    ∀ (l₁ l₂ : List Movement) (acc : JsNum × JsNum),
    l₁.map (fun m => m.period) = l₂.map (fun m => m.period) →
    l₁.foldl (rangeStep y) acc = l₂.foldl (rangeStep y) acc := by
  intro l₁
  induction l₁ with
  | nil =>
    intro l₂ acc h
    cases l₂ with
    | nil => rfl
    | cons b l₂ => cases h
  | cons a l₁ ih =>
    intro l₂ acc h
    cases l₂ with
    | nil => cases h
    | cons b l₂ =>
      simp only [List.map_cons, List.cons.injEq] at h
      simp only [List.foldl_cons]
      rw [show rangeStep y acc a = rangeStep y acc b by rw [rangeStep, rangeStep, h.1]]
      exact ih l₂ _ h.2

/-- `getYearRange` depends only on the period strings. -/
theorem getYearRange_congr (y : ℤ) (l₁ l₂ : List Movement)
    (h : l₁.map (fun m => m.period) = l₂.map (fun m => m.period)) :
    getYearRange y l₁ = getYearRange y l₂ := by
  rw [getYearRange, getYearRange, foldl_rangeStep_congr y l₁ l₂ _ h]

/-- Re-attaching the same lane assignment a second time changes nothing. -/
theorem idxFrom_map_attach_idem (v : ℕ → ℕ) :
    ∀ (l : List Movement) (n : ℕ),
    ((idxFrom n ((idxFrom n l).map (fun im => { im.2 with lane := some (v im.1) }))).map
      (fun im => { im.2 with lane := some (v im.1) })) =
    (idxFrom n l).map (fun im => { im.2 with lane := some (v im.1) }) := by
  intro l
  induction l with
  | nil => intro n; rfl
  | cons a l ih => intro n; simp [idxFrom, ih (n + 1)]

/-- C5.  Running the layout computation twice on the same input (with the
current year fixed) changes nothing: `assignLanes` reassigns identical
lanes, `getYearRange` returns the same range, and every computed bar
position (start and end, against the shared range) is identical. -/
theorem layout_idempotent (y : ℤ) (ms : List Movement) :
    assignLanes y (assignLanes y ms) = assignLanes y ms ∧
    getYearRange y (assignLanes y ms) = getYearRange y ms ∧
    (assignLanes y ms).map (fun m =>
      (yearToPosition (parsePeriod y m.period).start
        (getYearRange y ms).minYear (getYearRange y ms).maxYear,
       yearToPosition (parsePeriod y m.period).stop
        (getYearRange y ms).minYear (getYearRange y ms).maxYear)) =
    ms.map (fun m =>
      (yearToPosition (parsePeriod y m.period).start
        (getYearRange y ms).minYear (getYearRange y ms).maxYear,
       yearToPosition (parsePeriod y m.period).stop
        (getYearRange y ms).minYear (getYearRange y ms).maxYear)) := by
  refine ⟨?_, getYearRange_congr y _ _ (assignLanes_map_period y ms), ?_⟩
  · conv_lhs => rw [assignLanes]
    rw [show laneMap y ((assignLanes y ms).map (fun m => m.period)) =
        laneMap y (ms.map (fun m => m.period)) by rw [assignLanes_map_period]]
    conv_lhs => rw [show assignLanes y ms = (idxFrom 0 ms).map
      (fun im => { im.2 with lane := some ((lookupIdx im.1
        (laneMap y (ms.map (fun m => m.period)))).getD 0) }) from rfl]
    exact idxFrom_map_attach_idem
      (fun i => (lookupIdx i (laneMap y (ms.map (fun m => m.period)))).getD 0) ms 0
  · have hfac : ∀ l : List Movement, l.map (fun m =>
        (yearToPosition (parsePeriod y m.period).start
          (getYearRange y ms).minYear (getYearRange y ms).maxYear,
         yearToPosition (parsePeriod y m.period).stop
          (getYearRange y ms).minYear (getYearRange y ms).maxYear)) =
        (l.map (fun m => m.period)).map (fun s =>
        (yearToPosition (parsePeriod y s).start
          (getYearRange y ms).minYear (getYearRange y ms).maxYear,
         yearToPosition (parsePeriod y s).stop
          (getYearRange y ms).minYear (getYearRange y ms).maxYear)) := by
      intro l
      rw [List.map_map]
      rfl
    rw [hfac, hfac, assignLanes_map_period]

/-! ### Claim C3: `getYearRange` bounds and decade rounding -/

/-- Minimum parsed start over a movement list (defined for non-empty lists;
`0` for the empty list, which the claims exclude). -/
def minStartQ (y : ℤ) : List Movement → ℚ
  | [] => 0
  | m :: rest => rest.foldl (fun x n => min x (pqStart y n.period)) (pqStart y m.period)

/-- Maximum parsed end over a movement list. -/
def maxStopQ (y : ℤ) : List Movement → ℚ
  | [] => 0
  | m :: rest => rest.foldl (fun x n => max x (pqStop y n.period)) (pqStop y m.period)

/-- On movements whose periods all parse to finite numbers, the range fold
computes the rational min/max fold. -/
theorem foldl_rangeStep_num (y : ℤ) :
    ∀ (l : List Movement) (a b : ℚ),
    (∀ m ∈ l, ∃ s e : ℚ, parsePeriod y m.period = ⟨.num s, .num e⟩) →
    l.foldl (rangeStep y) (.num a, .num b) =
      (.num (l.foldl (fun x n => min x (pqStart y n.period)) a),
       .num (l.foldl (fun x n => max x (pqStop y n.period)) b)) := by
  intro l
  induction l with
  | nil => intro a b _; rfl
  | cons m rest ih =>
    intro a b hp
    obtain ⟨s, e, heq⟩ := hp m (List.mem_cons_self m rest)
    have hps : pqStart y m.period = s := by rw [pqStart, heq]
    have hpe : pqStop y m.period = e := by rw [pqStop, heq]
    simp only [List.foldl_cons]
    rw [show rangeStep y (.num a, .num b) m = (.num (min a s), .num (max b e)) by
      rw [rangeStep, heq]; rfl]
    rw [ih (min a s) (max b e) (fun n hn => hp n (List.mem_cons_of_mem m hn)), hps, hpe]

/-- A min-fold is bounded by its seed. -/
theorem foldl_min_le_init (y : ℤ) :
    ∀ (l : List Movement) (a : ℚ),
    l.foldl (fun x n => min x (pqStart y n.period)) a ≤ a := by
  intro l
  induction l with
  | nil => intro a; exact le_refl a
  | cons m rest ih =>
    intro a
    simp only [List.foldl_cons]
    exact le_trans (ih (min a (pqStart y m.period))) (min_le_left _ _)

/-- A min-fold is bounded by every element folded in. -/
theorem foldl_min_le_mem (y : ℤ) :
    ∀ (l : List Movement) (a : ℚ) (m : Movement), m ∈ l →
    l.foldl (fun x n => min x (pqStart y n.period)) a ≤ pqStart y m.period := by
  intro l
  induction l with
  | nil => intro a m hm; cases hm
  | cons b rest ih =>
    intro a m hm
    simp only [List.foldl_cons]
    rcases List.mem_cons.mp hm with h | h
    · subst h
      exact le_trans (foldl_min_le_init y rest _) (min_le_right _ _)
    · exact ih _ m h

/-- A max-fold dominates its seed. -/
theorem foldl_max_ge_init (y : ℤ) :
    ∀ (l : List Movement) (b : ℚ),
    b ≤ l.foldl (fun x n => max x (pqStop y n.period)) b := by
  intro l
  induction l with
  | nil => intro b; exact le_refl b
  | cons m rest ih =>
    intro b
    simp only [List.foldl_cons]
    exact le_trans (le_max_left _ _) (ih (max b (pqStop y m.period)))

/-- A max-fold dominates every element folded in. -/
theorem foldl_max_ge_mem (y : ℤ) :
    ∀ (l : List Movement) (b : ℚ) (m : Movement), m ∈ l →
    pqStop y m.period ≤ l.foldl (fun x n => max x (pqStop y n.period)) b := by
  intro l
  induction l with
  | nil => intro b m hm; cases hm
  | cons c rest ih =>
    intro b m hm
    simp only [List.foldl_cons]
    rcases List.mem_cons.mp hm with h | h
    · subst h
      exact le_trans (le_max_right _ _) (foldl_max_ge_init y rest _)
    · exact ih _ m h

/-- C3.  On a non-empty list whose periods all parse to finite numbers,
`getYearRange` returns the minimum start floored to a decade and the maximum
end ceiled to a decade: both are exact multiples of 10, `minYear` is `<=`
every parsed start and `maxYear` is `>=` every parsed end (expansion is
outward only). -/
theorem getYearRange_decade_bounds (y : ℤ) (ms : List Movement) (hne : ms ≠ [])
    (hp : ∀ m ∈ ms, ∃ s e : ℚ, parsePeriod y m.period = ⟨.num s, .num e⟩) :
    (getYearRange y ms).minYear = .num ((⌊minStartQ y ms / 10⌋ : ℤ) * 10) ∧
    (getYearRange y ms).maxYear = .num ((⌈maxStopQ y ms / 10⌉ : ℤ) * 10) ∧
    (∀ m ∈ ms,
      jsLe (getYearRange y ms).minYear (parsePeriod y m.period).start = true ∧
      jsLe (parsePeriod y m.period).stop (getYearRange y ms).maxYear = true) ∧
    (∃ k l : ℤ, (getYearRange y ms).minYear = .num ((k : ℚ) * 10) ∧
                (getYearRange y ms).maxYear = .num ((l : ℚ) * 10)) := by
  obtain ⟨m, rest, rfl⟩ : ∃ m rest, ms = m :: rest := by
    cases ms with
    | nil => exact absurd rfl hne
    | cons m rest => exact ⟨m, rest, rfl⟩
  obtain ⟨s, e, heq⟩ := hp m (List.mem_cons_self m rest)
  have hps : pqStart y m.period = s := by rw [pqStart, heq]
  have hpe : pqStop y m.period = e := by rw [pqStop, heq]
  have hstep : rangeStep y (.posInf, .negInf) m = (.num s, .num e) := by
    rw [rangeStep, heq]
    rfl
  have hfold := foldl_rangeStep_num y rest s e
    (fun n hn => hp n (List.mem_cons_of_mem m hn))
  have hacc : (m :: rest).foldl (rangeStep y) (.posInf, .negInf) =
      (.num (minStartQ y (m :: rest)), .num (maxStopQ y (m :: rest))) := by
    simp only [List.foldl_cons, hstep, hfold, minStartQ, maxStopQ, hps, hpe]
  have hmin : (getYearRange y (m :: rest)).minYear =
      .num ((⌊minStartQ y (m :: rest) / 10⌋ : ℤ) * 10) := by
    rw [getYearRange]
    simp only [hacc, jsDiv, jsFloor, jsMul]
    rw [if_neg (by norm_num : (10:ℚ) ≠ 0)]
  have hmax : (getYearRange y (m :: rest)).maxYear =
      .num ((⌈maxStopQ y (m :: rest) / 10⌉ : ℤ) * 10) := by
    rw [getYearRange]
    simp only [hacc, jsDiv, jsCeil, jsMul]
    rw [if_neg (by norm_num : (10:ℚ) ≠ 0)]
  refine ⟨hmin, hmax, ?_, ⟨⌊minStartQ y (m :: rest) / 10⌋, ⌈maxStopQ y (m :: rest) / 10⌉,
    by rw [hmin], by rw [hmax]⟩⟩
  intro n hn
  obtain ⟨sn, en, heqn⟩ := hp n hn
  have hpsn : pqStart y n.period = sn := by rw [pqStart, heqn]
  have hpen : pqStop y n.period = en := by rw [pqStop, heqn]
  have hlow : (⌊minStartQ y (m :: rest) / 10⌋ : ℚ) * 10 ≤ sn := by
    have h1 : (⌊minStartQ y (m :: rest) / 10⌋ : ℚ) ≤ minStartQ y (m :: rest) / 10 :=
      Int.floor_le _
    have h2 : minStartQ y (m :: rest) ≤ sn := by
      rcases List.mem_cons.mp hn with h | h
      · subst h
        rw [← hpsn, minStartQ]
        exact foldl_min_le_init y rest _
      · rw [← hpsn, minStartQ]
        exact foldl_min_le_mem y rest _ n h
    have h3 : (⌊minStartQ y (m :: rest) / 10⌋ : ℚ) * 10 ≤
        (minStartQ y (m :: rest) / 10) * 10 :=
      mul_le_mul_of_nonneg_right h1 (by norm_num)
    rw [div_mul_cancel₀ _ (by norm_num : (10:ℚ) ≠ 0)] at h3
    linarith
  have hhigh : en ≤ (⌈maxStopQ y (m :: rest) / 10⌉ : ℚ) * 10 := by
    have h1 : maxStopQ y (m :: rest) / 10 ≤ (⌈maxStopQ y (m :: rest) / 10⌉ : ℚ) :=
      Int.le_ceil _
    have h2 : en ≤ maxStopQ y (m :: rest) := by
      rcases List.mem_cons.mp hn with h | h
      · subst h
        rw [← hpen, maxStopQ]
        exact foldl_max_ge_init y rest _
      · rw [← hpen, maxStopQ]
        exact foldl_max_ge_mem y rest _ n h
    have h3 : (maxStopQ y (m :: rest) / 10) * 10 ≤
        (⌈maxStopQ y (m :: rest) / 10⌉ : ℚ) * 10 :=
      mul_le_mul_of_nonneg_right h1 (by norm_num)
    rw [div_mul_cancel₀ _ (by norm_num : (10:ℚ) ≠ 0)] at h3
    linarith
  rw [hmin, hmax, heqn]
  constructor
  · simpa [jsLe] using hlow
  · simpa [jsLe] using hhigh

/-- Movement for the C3 witness (Scenario C): period spanning 1818-2025. -/
def movC : Movement :=
  { id := "c", title := "C", description := "", period := "1818-2025",
    connections := [], lane := none }

/-- C3 witness (Scenario C): a period spanning 1818-2025 yields
`{minYear: 1810, maxYear: 2030}`, which bounds the parsed years. -/
theorem getYearRange_decade_bounds_witness :
    getYearRange 2025 [movC] = { minYear := .num 1810, maxYear := .num 2030 } ∧
    jsLe (getYearRange 2025 [movC]).minYear (.num 1818) = true ∧
    jsLe (.num 2025) (getYearRange 2025 [movC]).maxYear = true := by
  have h := getYearRange_decade_bounds 2025 [movC] (by decide)
    (by
      intro m hm
      rw [List.mem_singleton] at hm
      subst hm
      exact ⟨1818, 2025, by decide⟩)
  have hs : minStartQ 2025 [movC] = 1818 := by decide
  have he : maxStopQ 2025 [movC] = 2025 := by decide
  have hmin : (getYearRange 2025 [movC]).minYear = .num 1810 := by
    rw [h.1, hs]
    norm_num
  have hmax : (getYearRange 2025 [movC]).maxYear = .num 2030 := by
    rw [h.2.1, he]
    have hc : (⌈(2025:ℚ)/10⌉ : ℤ) = 203 := by
      rw [Int.ceil_eq_iff]
      norm_num
    rw [hc]
    norm_num
  have hb := h.2.2.1 movC (by decide)
  rw [show parsePeriod 2025 movC.period = ⟨.num 1818, .num 2025⟩ by decide] at hb
  exact ⟨by rw [YearRange.mk.injEq] at *; exact ⟨hmin, hmax⟩, hb.1, hb.2⟩

/-! ### A rational-valued core of the lane scan

Under the hypothesis that every period parses to finite numbers, the
`JsNum`-level scan `fillLanesP` computes exactly this rational-valued scan,
which the non-overlap and minimality proofs are about. -/

/-- First-fit on rational lane end-years. -/
def findLaneQ (lanes : List ℚ) (s : ℚ) : Option ℕ :=
  match lanes with
  | [] => none
  | e :: rest => if e ≤ s then some 0 else (findLaneQ rest s).map (· + 1)

/-- The lane scan on `(original index, start, end)` triples: returns each
triple paired with its assigned lane, in processing order, together with the
final lane array. -/
def coreAssign : List (ℕ × ℚ × ℚ) → List ℚ → List ((ℕ × ℚ × ℚ) × ℕ) × List ℚ
  | [], lanes => ([], lanes)
  | a :: rest, lanes =>
    match findLaneQ lanes a.2.1 with
    | some k =>
        let r := coreAssign rest (lanes.set k a.2.2)
        ((a, k) :: r.1, r.2)
    | none =>
        let r := coreAssign rest (lanes ++ [a.2.2])
        ((a, lanes.length) :: r.1, r.2)

/-- Parsed triple of an indexed period string. -/
def toQ (y : ℤ) (p : ℕ × String) : ℕ × ℚ × ℚ := (p.1, pqStart y p.2, pqStop y p.2)

/-- A found lane index is in bounds. -/
theorem findLaneQ_some_lt : ∀ (lanes : List ℚ) (s : ℚ) (k : ℕ),
    findLaneQ lanes s = some k → k < lanes.length := by
  intro lanes
  induction lanes with
  | nil => intro s k h; cases h
  | cons e rest ih =>
    intro s k h
    rw [findLaneQ] at h
    by_cases he : e ≤ s
    · rw [if_pos he] at h
      cases h
      simp
    · rw [if_neg he] at h
      cases hr : findLaneQ rest s with
      | none => rw [hr] at h; cases h
      | some k0 =>
        rw [hr] at h
        cases h
        have := ih s k0 hr
        simp only [List.length_cons]
        omega

/-- A found lane's recorded end-year admits the new start. -/
theorem findLaneQ_some_le : ∀ (lanes : List ℚ) (s : ℚ) (k : ℕ),
    findLaneQ lanes s = some k → ∀ hk : k < lanes.length, lanes.get ⟨k, hk⟩ ≤ s := by
  intro lanes
  induction lanes with
  | nil => intro s k h; cases h
  | cons e rest ih =>
    intro s k h hk
    rw [findLaneQ] at h
    by_cases he : e ≤ s
    · rw [if_pos he] at h
      cases h
      exact he
    · rw [if_neg he] at h
      cases hr : findLaneQ rest s with
      | none => rw [hr] at h; cases h
      | some k0 =>
        rw [hr] at h
        cases h
        exact ih s k0 hr (by simpa using hk)

/-- When no lane is found, every lane's recorded end-year exceeds the new
start. -/
theorem findLaneQ_none : ∀ (lanes : List ℚ) (s : ℚ),
    findLaneQ lanes s = none → ∀ (k : ℕ) (hk : k < lanes.length), s < lanes.get ⟨k, hk⟩ := by
  intro lanes
  induction lanes with
  | nil => intro s _ k hk; cases hk
  | cons e rest ih =>
    intro s h k hk
    rw [findLaneQ] at h
    by_cases he : e ≤ s
    · rw [if_pos he] at h; cases h
    · rw [if_neg he] at h
      cases k with
      | zero => exact lt_of_not_le he
      | succ k =>
        cases hr : findLaneQ rest s with
        | none => exact ih s hr k (by simpa using hk)
        | some k0 => rw [hr] at h; cases h

/-- `findLane` on finite lane values is `findLaneQ`. -/
theorem findLane_map_num : ∀ (lanes : List ℚ) (s : ℚ),
    findLane (lanes.map JsNum.num) (.num s) = findLaneQ lanes s := by
  intro lanes
  induction lanes with
  | nil => intro s; rfl
  | cons e rest ih =>
    intro s
    rw [List.map_cons, findLane, findLaneQ]
    by_cases he : e ≤ s
    · rw [if_pos (by simpa [jsLe] using he), if_pos he]
    · rw [if_neg (by simpa [jsLe] using he), if_neg he, ih]

/-- On all-parsing periods, the `JsNum` scan is the rational scan. -/
theorem fillLanesP_eq_core (y : ℤ) : ∀ (L : List (ℕ × String)) (lanesQ : List ℚ),
    (∀ p ∈ L, ∃ s e : ℚ, parsePeriod y p.2 = ⟨.num s, .num e⟩) →
    fillLanesP y L (lanesQ.map JsNum.num) =
      ((coreAssign (L.map (toQ y)) lanesQ).1.map (fun x => (x.1.1, x.2)),
       (coreAssign (L.map (toQ y)) lanesQ).2.map JsNum.num) := by
  intro L
  induction L with
  | nil => intro lanesQ _; rfl
  | cons p rest ih =>
    intro lanesQ hp
    obtain ⟨a, b, heq⟩ := hp p (List.mem_cons_self p rest)
    have hps : pqStart y p.2 = a := by rw [pqStart, heq]
    have hpe : pqStop y p.2 = b := by rw [pqStop, heq]
    have htoQ : toQ y p = (p.1, a, b) := by rw [toQ, hps, hpe]
    obtain ⟨i, s⟩ := p
    simp only [fillLanesP, heq, List.map_cons, htoQ, coreAssign]
    rw [findLane_map_num]
    cases hf : findLaneQ lanesQ a with
    | some k =>
      simp only [hf]
      rw [show (lanesQ.map JsNum.num).set k (JsNum.num b) = (lanesQ.set k b).map JsNum.num by
        rw [List.map_set]]
      rw [ih (lanesQ.set k b) (fun q hq => hp q (List.mem_cons_of_mem _ hq))]
      simp
    | none =>
      simp only [hf]
      rw [show lanesQ.map JsNum.num ++ [JsNum.num b] = (lanesQ ++ [b]).map JsNum.num by
        rw [List.map_append, List.map_cons, List.map_nil]]
      rw [ih (lanesQ ++ [b]) (fun q hq => hp q (List.mem_cons_of_mem _ hq))]
      simp

/-- The processed entries of the scan are the input, in order. -/
theorem coreAssign_map_fst : ∀ (L : List (ℕ × ℚ × ℚ)) (lanes : List ℚ),
    (coreAssign L lanes).1.map Prod.fst = L := by
  intro L
  induction L with
  | nil => intro lanes; rfl
  | cons a rest ih =>
    intro lanes
    rw [coreAssign]
    cases hf : findLaneQ lanes a.2.1 with
    | some k => simp only [List.map_cons, ih]
    | none => simp only [List.map_cons, ih]

/-- The scan never closes a lane. -/
theorem coreAssign_lanes_le : ∀ (L : List (ℕ × ℚ × ℚ)) (lanes : List ℚ),
    lanes.length ≤ (coreAssign L lanes).2.length := by
  intro L
  induction L with
  | nil => intro lanes; exact le_refl _
  | cons a rest ih =>
    intro lanes
    rw [coreAssign]
    cases hf : findLaneQ lanes a.2.1 with
    | some k =>
      have := ih (lanes.set k a.2.2)
      simpa using this
    | none =>
      have := ih (lanes ++ [a.2.2])
      simp only [List.length_append, List.length_cons, List.length_nil] at this
      simp only []
      omega

/-- Every assigned lane index is below the final lane count. -/
theorem coreAssign_lane_lt : ∀ (L : List (ℕ × ℚ × ℚ)) (lanes : List ℚ)
    (x : (ℕ × ℚ × ℚ) × ℕ), x ∈ (coreAssign L lanes).1 →
    x.2 < (coreAssign L lanes).2.length := by
  intro L
  induction L with
  | nil => intro lanes x hx; cases hx
  | cons a rest ih =>
    intro lanes x hx
    rw [coreAssign] at hx ⊢
    cases hf : findLaneQ lanes a.2.1 with
    | some k =>
      simp only [hf] at hx ⊢
      rcases List.mem_cons.mp hx with h | h
      · subst h
        have h1 : k < lanes.length := findLaneQ_some_lt lanes a.2.1 k hf
        have h2 := coreAssign_lanes_le rest (lanes.set k a.2.2)
        simp only [List.length_set] at h2
        exact lt_of_lt_of_le h1 h2
      · exact ih (lanes.set k a.2.2) x h
    | none =>
      simp only [hf] at hx ⊢
      rcases List.mem_cons.mp hx with h | h
      · subst h
        have h2 := coreAssign_lanes_le rest (lanes ++ [a.2.2])
        simp only [List.length_append, List.length_cons, List.length_nil] at h2
        omega
      · exact ih (lanes ++ [a.2.2]) x h

/-- B-invariant: when the input is sorted by start, every entry assigned to a
pre-existing lane `k` starts no earlier than that lane's initial end-year
(the first such entry passes the test against it, and later ones start even
later). -/
theorem coreAssign_start_ge : ∀ (L : List (ℕ × ℚ × ℚ)) (lanes : List ℚ),
    L.Pairwise (fun a b => a.2.1 ≤ b.2.1) →
    ∀ (k : ℕ) (hk : k < lanes.length) (x : (ℕ × ℚ × ℚ) × ℕ),
    x ∈ (coreAssign L lanes).1 → x.2 = k → lanes.get ⟨k, hk⟩ ≤ x.1.2.1 := by
  intro L
  induction L with
  | nil => intro lanes _ k hk x hx; cases hx
  | cons a rest ih =>
    intro lanes hs k hk x hx hxk
    have hhead : ∀ b ∈ rest, a.2.1 ≤ b.2.1 := (List.pairwise_cons.mp hs).1
    have hrest : rest.Pairwise (fun a b => a.2.1 ≤ b.2.1) := (List.pairwise_cons.mp hs).2
    rw [coreAssign] at hx
    cases hf : findLaneQ lanes a.2.1 with
    | some k0 =>
      simp only [hf] at hx
      have hk0 : k0 < lanes.length := findLaneQ_some_lt lanes a.2.1 k0 hf
      rcases List.mem_cons.mp hx with h | h
      · subst h
        have hkk : k0 = k := hxk
        exact findLaneQ_some_le lanes a.2.1 k (hkk ▸ hf) hk
      · by_cases hkk : k0 = k
        · subst hkk
          have hx1 : x.1 ∈ rest := by
            have := List.mem_map_of_mem Prod.fst h
            rwa [coreAssign_map_fst] at this
          have h1 : lanes.get ⟨k0, hk⟩ ≤ a.2.1 := findLaneQ_some_le lanes a.2.1 k0 hf hk
          exact le_trans h1 (hhead x.1 hx1)
        · have hk' : k < (lanes.set k0 a.2.2).length := by simpa using hk
          have := ih (lanes.set k0 a.2.2) hrest k hk' x h hxk
          rwa [show (lanes.set k0 a.2.2).get ⟨k, hk'⟩ = lanes.get ⟨k, hk⟩ by
            simp [List.getElem_set_ne hkk]] at this
    | none =>
      simp only [hf] at hx
      rcases List.mem_cons.mp hx with h | h
      · subst h
        simp only at hxk
        omega
      · have hk' : k < (lanes ++ [a.2.2]).length := by simp; omega
        have := ih (lanes ++ [a.2.2]) hrest k hk' x h hxk
        rwa [show (lanes ++ [a.2.2]).get ⟨k, hk'⟩ = lanes.get ⟨k, hk⟩ by
          simp [List.getElem_append_left hk]] at this

/-- Core non-overlap: on a start-sorted input, whenever two entries share a
lane, the earlier one ends no later than the later one starts. -/
theorem coreAssign_pairwise : ∀ (L : List (ℕ × ℚ × ℚ)) (lanes : List ℚ),
    L.Pairwise (fun a b => a.2.1 ≤ b.2.1) →
    (coreAssign L lanes).1.Pairwise (fun x w => x.2 = w.2 → x.1.2.2 ≤ w.1.2.1) := by
  intro L
  induction L with
  | nil => intro lanes _; exact List.Pairwise.nil
  | cons a rest ih =>
    intro lanes hs
    have hhead : ∀ b ∈ rest, a.2.1 ≤ b.2.1 := (List.pairwise_cons.mp hs).1
    have hrest : rest.Pairwise (fun a b => a.2.1 ≤ b.2.1) := (List.pairwise_cons.mp hs).2
    rw [coreAssign]
    cases hf : findLaneQ lanes a.2.1 with
    | some k =>
      simp only [hf]
      have hk : k < lanes.length := findLaneQ_some_lt lanes a.2.1 k hf
      rw [List.pairwise_cons]
      constructor
      · intro w hw hkw
        have hk' : k < (lanes.set k a.2.2).length := by simpa using hk
        have := coreAssign_start_ge rest (lanes.set k a.2.2) hrest k hk' w hw hkw.symm
        rwa [show (lanes.set k a.2.2).get ⟨k, hk'⟩ = a.2.2 by
          simp [List.getElem_set_self]] at this
      · exact ih (lanes.set k a.2.2) hrest
    | none =>
      simp only [hf]
      rw [List.pairwise_cons]
      constructor
      · intro w hw hkw
        have hk' : lanes.length < (lanes ++ [a.2.2]).length := by simp
        have := coreAssign_start_ge rest (lanes ++ [a.2.2]) hrest lanes.length hk' w hw
          hkw.symm
        rwa [show (lanes ++ [a.2.2]).get ⟨lanes.length, hk'⟩ = a.2.2 by simp] at this
      · exact ih (lanes ++ [a.2.2]) hrest

/-! ### Properties of the stable insertion sort -/

/-- Insertion permutes. -/
theorem insertLE_perm {α : Type} (le : α → α → Bool) (x : α) :
    ∀ l : List α, List.Perm (insertLE le x l) (x :: l) := by
  intro l
  induction l with
  | nil => exact List.Perm.refl _
  | cons b t ih =>
    rw [insertLE]
    by_cases h : le x b
    · rw [if_pos h]
    · rw [if_neg h]
      exact (ih.cons b).trans (List.Perm.swap x b t)

/-- Sorting permutes. -/
theorem sortLE_perm {α : Type} (le : α → α → Bool) :
    ∀ l : List α, List.Perm (sortLE le l) l := by
  intro l
  induction l with
  | nil => exact List.Perm.refl _
  | cons a t ih => exact (insertLE_perm le a (sortLE le t)).trans (ih.cons a)

/-- Membership after insertion. -/
theorem mem_insertLE {α : Type} (le : α → α → Bool) (x z : α) (l : List α) :
    z ∈ insertLE le x l ↔ z = x ∨ z ∈ l := by
  rw [(insertLE_perm le x l).mem_iff, List.mem_cons]

/-- Membership after sorting. -/
theorem mem_sortLE {α : Type} (le : α → α → Bool) (z : α) (l : List α) :
    z ∈ sortLE le l ↔ z ∈ l := by
  rw [(sortLE_perm le l).mem_iff]

/-- Inserting into a sorted list keeps it sorted, assuming the comparator is
total and transitive on elements satisfying `P`. -/
theorem insertLE_pairwise {α : Type} (le : α → α → Bool) (P : α → Prop)
    (htot : ∀ a b, P a → P b → le a b = true ∨ le b a = true)
    (htrans : ∀ a b c, P a → P b → P c → le a b = true → le b c = true → le a c = true)
    (x : α) (hx : P x) :
    ∀ l : List α, (∀ z ∈ l, P z) → l.Pairwise (fun a b => le a b = true) →
    (insertLE le x l).Pairwise (fun a b => le a b = true) := by
  intro l
  induction l with
  | nil =>
    intro _ _
    simp [insertLE]
  | cons b t ih =>
    intro hP hp
    have hPb : P b := hP b (List.mem_cons_self b t)
    have hPt : ∀ z ∈ t, P z := fun z hz => hP z (List.mem_cons_of_mem b hz)
    have hbt : ∀ z ∈ t, le b z = true := (List.pairwise_cons.mp hp).1
    have hpt : t.Pairwise (fun a b => le a b = true) := (List.pairwise_cons.mp hp).2
    rw [insertLE]
    by_cases h : le x b
    · rw [if_pos h]
      rw [List.pairwise_cons]
      refine ⟨?_, hp⟩
      intro z hz
      rcases List.mem_cons.mp hz with hzb | hzt
      · subst hzb; exact h
      · exact htrans x b z hx hPb (hPt z hzt) h (hbt z hzt)
    · rw [if_neg h]
      rw [List.pairwise_cons]
      constructor
      · intro z hz
        rcases (mem_insertLE le x z t).mp hz with hzx | hzt
        · rw [hzx]
          rcases htot x b hx hPb with h1 | h1
          · exact absurd h1 h
          · exact h1
        · exact hbt z hzt
      · exact ih hPt hpt

/-- The sort output is pairwise ordered by the comparator, assuming the
comparator is total and transitive on elements satisfying `P`. -/
theorem sortLE_pairwise {α : Type} (le : α → α → Bool) (P : α → Prop)
    (htot : ∀ a b, P a → P b → le a b = true ∨ le b a = true)
    (htrans : ∀ a b c, P a → P b → P c → le a b = true → le b c = true → le a c = true) :
    ∀ l : List α, (∀ z ∈ l, P z) →
    (sortLE le l).Pairwise (fun a b => le a b = true) := by
  intro l
  induction l with
  | nil => intro _; exact List.Pairwise.nil
  | cons a t ih =>
    intro hP
    have hPa : P a := hP a (List.mem_cons_self a t)
    have hPt : ∀ z ∈ t, P z := fun z hz => hP z (List.mem_cons_of_mem a hz)
    rw [sortLE]
    exact insertLE_pairwise le P htot htrans a hPa (sortLE le t)
      (fun z hz => hPt z ((mem_sortLE le z t).mp hz)) (ih hPt)

/-! ### Index-tagging lemmas -/

/-- Characterization of membership in an index-tagged list. -/
theorem idxFrom_mem_iff {α : Type} :
    ∀ (l : List α) (n : ℕ) (p : ℕ × α),
    p ∈ idxFrom n l ↔ ∃ (j : ℕ) (h : j < l.length), p = (n + j, l.get ⟨j, h⟩) := by
  intro l
  induction l with
  | nil => intro n p; simp [idxFrom]
  | cons a t ih =>
    intro n p
    rw [idxFrom, List.mem_cons, ih (n + 1) p]
    constructor
    · rintro (h | ⟨j, hj, rfl⟩)
      · exact ⟨0, by simp, by simp [h]⟩
      · refine ⟨j + 1, by simpa using Nat.succ_lt_succ hj, ?_⟩
        rw [Prod.mk.injEq]
        exact ⟨by omega, by simp⟩
    · rintro ⟨j, hj, rfl⟩
      cases j with
      | zero => left; simp
      | succ j =>
        right
        refine ⟨j, by simpa using hj, ?_⟩
        rw [Prod.mk.injEq]
        exact ⟨by omega, by simp⟩

/-! ### Assembling the lane claims -/

/-- Keys of an index-tagged list. -/
theorem idxFrom_map_fst {α : Type} :
    ∀ (l : List α) (n : ℕ), (idxFrom n l).map Prod.fst = List.range' n l.length := by
  intro l
  induction l with
  | nil => intro n; rfl
  | cons a t ih => intro n; simp [idxFrom, List.range'_succ, ih]

/-- `lookupIdx` only returns stored pairs. -/
theorem lookupIdx_mem : ∀ (l : List (ℕ × ℕ)) (i k : ℕ),
    lookupIdx i l = some k → (i, k) ∈ l := by
  intro l
  induction l with
  | nil => intro i k h; cases h
  | cons a t ih =>
    intro i k h
    rw [lookupIdx] at h
    by_cases hi : i = a.1
    · rw [if_pos hi] at h
      cases h
      rw [hi]
      simp
    · rw [if_neg hi] at h
      exact List.mem_cons_of_mem a (ih i k h)

/-- `lookupIdx` succeeds on every stored key. -/
theorem lookupIdx_isSome : ∀ (l : List (ℕ × ℕ)) (i : ℕ),
    i ∈ l.map Prod.fst → ∃ k, lookupIdx i l = some k := by
  intro l
  induction l with
  | nil => intro i h; cases h
  | cons a t ih =>
    intro i h
    rw [lookupIdx]
    by_cases hi : i = a.1
    · exact ⟨a.2, by rw [if_pos hi]⟩
    · rw [if_neg hi]
      rcases List.mem_cons.mp h with h1 | h1
      · exact absurd h1 hi
      · exact ih i h1

/-- Record `i` of `assignLanes` output is record `i` of the input with the
scanned lane attached. -/
theorem assignLanes_get (y : ℤ) (ms : List Movement) (i : ℕ)
    (hi : i < (assignLanes y ms).length) (h : i < ms.length) :
    (assignLanes y ms).get ⟨i, hi⟩ =
      { ms.get ⟨i, h⟩ with lane := some ((lookupIdx i
          (laneMap y (ms.map (fun m => m.period)))).getD 0) } := by
  have h2 : i < (idxFrom 0 ms).length := by simpa [idxFrom_length] using h
  simp only [assignLanes, List.get_eq_getElem, List.getElem_map]
  have := idxFrom_get ms 0 i h h2
  simp only [List.get_eq_getElem] at this
  rw [this]
  simp

/-- Every element of the sorted period list parses, given that every input
period parses. -/
theorem sortedPeriods_parses (y : ℤ) (ps : List String)
    (hps : ∀ s ∈ ps, ∃ a b : ℚ, parsePeriod y s = ⟨.num a, .num b⟩) :
    ∀ p ∈ sortedPeriods y ps, ∃ a b : ℚ, parsePeriod y p.2 = ⟨.num a, .num b⟩ := by
  intro p hp
  rw [sortedPeriods, mem_sortLE, idxFrom_mem_iff] at hp
  obtain ⟨j, hj, rfl⟩ := hp
  exact hps _ (List.get_mem ps j hj)

/-- On all-parsing periods, the start keys of the sorted list are
nondecreasing after parsing. -/
theorem sortedPeriods_sorted_starts (y : ℤ) (ps : List String)
    (hps : ∀ s ∈ ps, ∃ a b : ℚ, parsePeriod y s = ⟨.num a, .num b⟩) :
    ((sortedPeriods y ps).map (toQ y)).Pairwise (fun a b => a.2.1 ≤ b.2.1) := by
  have hP : ∀ p ∈ idxFrom 0 ps, ∃ a b : ℚ, parsePeriod y p.2 = ⟨.num a, .num b⟩ := by
    intro p hp
    rw [idxFrom_mem_iff] at hp
    obtain ⟨j, hj, rfl⟩ := hp
    exact hps _ (List.get_mem ps j hj)
  have hsorted := sortLE_pairwise
    (fun a b => sortKeyLe (parsePeriod y a.2).start (parsePeriod y b.2).start)
    (fun p => ∃ a b : ℚ, parsePeriod y p.2 = ⟨.num a, .num b⟩)
    (by
      intro a b hA hB
      obtain ⟨sa, ea, ha⟩ := hA
      obtain ⟨sb, eb, hb⟩ := hB
      show sortKeyLe (parsePeriod y a.2).start (parsePeriod y b.2).start = true ∨
        sortKeyLe (parsePeriod y b.2).start (parsePeriod y a.2).start = true
      rw [ha, hb]
      simp only [sortKeyLe]
      rcases le_total sa sb with h | h
      · left; exact decide_eq_true h
      · right; exact decide_eq_true h)
    (by
      intro a b c hA hB hC h1 h2
      obtain ⟨sa, ea, ha⟩ := hA
      obtain ⟨sb, eb, hb⟩ := hB
      obtain ⟨sc, ec, hc⟩ := hC
      replace h1 : sortKeyLe (parsePeriod y a.2).start (parsePeriod y b.2).start = true := h1
      replace h2 : sortKeyLe (parsePeriod y b.2).start (parsePeriod y c.2).start = true := h2
      rw [ha, hb] at h1
      rw [hb, hc] at h2
      show sortKeyLe (parsePeriod y a.2).start (parsePeriod y c.2).start = true
      rw [ha, hc]
      simp only [sortKeyLe] at h1 h2 ⊢
      exact decide_eq_true (le_trans (of_decide_eq_true h1) (of_decide_eq_true h2)))
    (idxFrom 0 ps) hP
  rw [List.pairwise_map]
  refine hsorted.imp_of_mem ?_
  intro a b ha hb hc
  rw [mem_sortLE] at ha hb
  obtain ⟨sa, ea, hpa⟩ := hP a ha
  obtain ⟨sb, eb, hpb⟩ := hP b hb
  replace hc : sortKeyLe (parsePeriod y a.2).start (parsePeriod y b.2).start = true := hc
  rw [hpa, hpb] at hc
  simp only [sortKeyLe] at hc
  have hle : sa ≤ sb := of_decide_eq_true hc
  show (toQ y a).2.1 ≤ (toQ y b).2.1
  rw [toQ, toQ]
  simp only []
  rw [show pqStart y a.2 = sa by rw [pqStart, hpa], show pqStart y b.2 = sb by rw [pqStart, hpb]]
  exact hle

/-- Final lane count of the scan, as a function of the period list
(`numLanes y ms = numLanesOfPs y (ms.map period)` definitionally). -/
def numLanesOfPs (y : ℤ) (ps : List String) : ℕ :=
  (fillLanesP y (sortedPeriods y ps) []).2.length

/-- The scan `assignLanes` runs is the rational core scan, on all-parsing
inputs. -/
theorem laneMap_eq_core (y : ℤ) (ps : List String)
    (hps : ∀ s ∈ ps, ∃ a b : ℚ, parsePeriod y s = ⟨.num a, .num b⟩) :
    laneMap y ps = (coreAssign ((sortedPeriods y ps).map (toQ y)) []).1.map
      (fun x => (x.1.1, x.2)) ∧
    numLanesOfPs y ps = (coreAssign ((sortedPeriods y ps).map (toQ y)) []).2.length := by
  have h := fillLanesP_eq_core y (sortedPeriods y ps) []
    (sortedPeriods_parses y ps hps)
  rw [show (([] : List ℚ).map JsNum.num) = [] from rfl] at h
  constructor
  · rw [laneMap, h]
  · rw [numLanesOfPs, h]
    simp

/-- Characterization of the parsed entries fed to the core scan. -/
theorem mem_sortedQ_char (y : ℤ) (ps : List String) (a : ℕ × ℚ × ℚ)
    (ha : a ∈ (sortedPeriods y ps).map (toQ y)) :
    a.1 < ps.length ∧ a.2.1 = pqStart y (ps.getD a.1 "") ∧
      a.2.2 = pqStop y (ps.getD a.1 "") := by
  rw [List.mem_map] at ha
  obtain ⟨p, hp, rfl⟩ := ha
  rw [sortedPeriods, mem_sortLE, idxFrom_mem_iff] at hp
  obtain ⟨j, hj, rfl⟩ := hp
  have hj' : (0 + j) < ps.length := by simpa using hj
  have hget : ps.getD (0 + j) "" = ps.get ⟨j, hj⟩ := by
    rw [List.getD_eq_getElem ps "" hj']
    simp
  refine ⟨hj', ?_, ?_⟩
  · show pqStart y (ps.get ⟨j, hj⟩) = pqStart y (ps.getD (0 + j) "")
    rw [hget]
  · show pqStop y (ps.get ⟨j, hj⟩) = pqStop y (ps.getD (0 + j) "")
    rw [hget]

/-- Every original index appears among the scanned keys. -/
theorem laneMap_keys (y : ℤ) (ps : List String)
    (hps : ∀ s ∈ ps, ∃ a b : ℚ, parsePeriod y s = ⟨.num a, .num b⟩)
    (i : ℕ) (hi : i < ps.length) : i ∈ (laneMap y ps).map Prod.fst := by
  rw [(laneMap_eq_core y ps hps).1, List.map_map]
  have h2 : ((coreAssign ((sortedPeriods y ps).map (toQ y)) []).1.map
      (Prod.fst ∘ (fun x : (ℕ × ℚ × ℚ) × ℕ => (x.1.1, x.2)))) =
      ((sortedPeriods y ps).map (toQ y)).map Prod.fst := by
    calc ((coreAssign ((sortedPeriods y ps).map (toQ y)) []).1.map
        (Prod.fst ∘ (fun x : (ℕ × ℚ × ℚ) × ℕ => (x.1.1, x.2))))
        = (((coreAssign ((sortedPeriods y ps).map (toQ y)) []).1.map Prod.fst).map
            Prod.fst) := by rw [List.map_map]; rfl
      _ = _ := by rw [coreAssign_map_fst]
  rw [h2, List.map_map]
  rw [(rfl : (Prod.fst ∘ toQ y) = (Prod.fst : ℕ × String → ℕ))]
  have hperm := ((sortLE_perm
    (fun a b => sortKeyLe (parsePeriod y a.2).start (parsePeriod y b.2).start)
    (idxFrom 0 ps)).map (Prod.fst : ℕ × String → ℕ))
  rw [sortedPeriods]
  refine hperm.mem_iff.mpr ?_
  rw [idxFrom_map_fst]
  rw [List.mem_range'_1]
  omega

/-- Two distinct same-lane entries of the scan are interval-disjoint (one
ends no later than the other starts). -/
theorem coreAssign_mem_same_lane (L : List (ℕ × ℚ × ℚ)) (lanes : List ℚ)
    (hsort : L.Pairwise (fun a b => a.2.1 ≤ b.2.1))
    (x w : (ℕ × ℚ × ℚ) × ℕ) (hx : x ∈ (coreAssign L lanes).1)
    (hw : w ∈ (coreAssign L lanes).1) (hne : x ≠ w) (hl : x.2 = w.2) :
    x.1.2.2 ≤ w.1.2.1 ∨ w.1.2.2 ≤ x.1.2.1 := by
  have hpw := coreAssign_pairwise L lanes hsort
  obtain ⟨ix, hix, hgx⟩ := List.mem_iff_getElem.mp hx
  obtain ⟨iw, hiw, hgw⟩ := List.mem_iff_getElem.mp hw
  rcases lt_trichotomy ix iw with h | h | h
  · left
    have hrel := List.pairwise_iff_getElem.mp hpw ix iw hix hiw h
    rw [hgx, hgw] at hrel
    exact hrel hl
  · exfalso
    apply hne
    subst h
    rw [← hgx, ← hgw]
  · right
    have hrel := List.pairwise_iff_getElem.mp hpw iw ix hiw hix h
    rw [hgx, hgw] at hrel
    exact hrel hl.symm

/-- C1.  After `assignLanes`, any two distinct movements that received the
same lane have periods that overlap at most at a shared boundary point: one
movement's parsed end is `<=` the other's parsed start.  (Stated for inputs
whose periods all parse to finite numbers; an unparseable period makes the
sort comparator return `NaN`, for which ECMAScript leaves the sort order
implementation-defined.) -/
theorem assignLanes_same_lane_disjoint (y : ℤ) (ms : List Movement)
    (hp : ∀ m ∈ ms, ∃ s e : ℚ, parsePeriod y m.period = ⟨.num s, .num e⟩) :
    ∀ (i j : ℕ) (hi : i < (assignLanes y ms).length)
      (hj : j < (assignLanes y ms).length), i ≠ j →
      ((assignLanes y ms).get ⟨i, hi⟩).lane = ((assignLanes y ms).get ⟨j, hj⟩).lane →
      (jsLe (parsePeriod y ((assignLanes y ms).get ⟨i, hi⟩).period).stop
            (parsePeriod y ((assignLanes y ms).get ⟨j, hj⟩).period).start = true ∨
       jsLe (parsePeriod y ((assignLanes y ms).get ⟨j, hj⟩).period).stop
            (parsePeriod y ((assignLanes y ms).get ⟨i, hi⟩).period).start = true) := by
  intro i j hi hj hij hlane
  have hps : ∀ s ∈ ms.map (fun m => m.period), ∃ a b : ℚ,
      parsePeriod y s = ⟨.num a, .num b⟩ := by
    intro s hs
    rw [List.mem_map] at hs
    obtain ⟨m, hm, rfl⟩ := hs
    exact hp m hm
  have hlen : (assignLanes y ms).length = ms.length := by
    simp [assignLanes, idxFrom_length]
  have hi' : i < ms.length := hlen ▸ hi
  have hj' : j < ms.length := hlen ▸ hj
  have hpsl : (ms.map (fun m => m.period)).length = ms.length := by simp
  have hgi := assignLanes_get y ms i hi hi'
  have hgj := assignLanes_get y ms j hj hj'
  obtain ⟨ki, hki⟩ := lookupIdx_isSome (laneMap y (ms.map (fun m => m.period))) i
    (laneMap_keys y (ms.map (fun m => m.period)) hps i (by omega))
  obtain ⟨kj, hkj⟩ := lookupIdx_isSome (laneMap y (ms.map (fun m => m.period))) j
    (laneMap_keys y (ms.map (fun m => m.period)) hps j (by omega))
  have hlanei : ((assignLanes y ms).get ⟨i, hi⟩).lane = some ki := by
    rw [hgi, hki]
    rfl
  have hlanej : ((assignLanes y ms).get ⟨j, hj⟩).lane = some kj := by
    rw [hgj, hkj]
    rfl
  have hk : ki = kj := by
    rw [hlanei, hlanej] at hlane
    exact Option.some.inj hlane
  have hmemi := lookupIdx_mem _ i ki hki
  have hmemj := lookupIdx_mem _ j kj hkj
  rw [(laneMap_eq_core y (ms.map (fun m => m.period)) hps).1, List.mem_map] at hmemi hmemj
  obtain ⟨x, hxR, hxeq⟩ := hmemi
  obtain ⟨w, hwR, hweq⟩ := hmemj
  have hx1 : x.1.1 = i := congrArg Prod.fst hxeq
  have hx2 : x.2 = ki := congrArg Prod.snd hxeq
  have hw1 : w.1.1 = j := congrArg Prod.fst hweq
  have hw2 : w.2 = kj := congrArg Prod.snd hweq
  have hxL : x.1 ∈ (sortedPeriods y (ms.map (fun m => m.period))).map (toQ y) := by
    have := List.mem_map_of_mem Prod.fst hxR
    rwa [coreAssign_map_fst] at this
  have hwL : w.1 ∈ (sortedPeriods y (ms.map (fun m => m.period))).map (toQ y) := by
    have := List.mem_map_of_mem Prod.fst hwR
    rwa [coreAssign_map_fst] at this
  obtain ⟨hxlt, hxs, hxe⟩ := mem_sortedQ_char y _ x.1 hxL
  obtain ⟨hwlt, hws, hwe⟩ := mem_sortedQ_char y _ w.1 hwL
  obtain ⟨si, ei, hpi⟩ := hp (ms.get ⟨i, hi'⟩) (List.get_mem ms i hi')
  obtain ⟨sj, ej, hpj⟩ := hp (ms.get ⟨j, hj'⟩) (List.get_mem ms j hj')
  have hgdi : (ms.map (fun m => m.period)).getD i "" = (ms.get ⟨i, hi'⟩).period := by
    rw [List.getD_eq_getElem _ "" (by omega : i < (ms.map (fun m => m.period)).length)]
    simp
  have hgdj : (ms.map (fun m => m.period)).getD j "" = (ms.get ⟨j, hj'⟩).period := by
    rw [List.getD_eq_getElem _ "" (by omega : j < (ms.map (fun m => m.period)).length)]
    simp
  have hxs' : x.1.2.1 = si := by
    rw [hxs, hx1, hgdi, pqStart, hpi]
  have hxe' : x.1.2.2 = ei := by
    rw [hxe, hx1, hgdi, pqStop, hpi]
  have hws' : w.1.2.1 = sj := by
    rw [hws, hw1, hgdj, pqStart, hpj]
  have hwe' : w.1.2.2 = ej := by
    rw [hwe, hw1, hgdj, pqStop, hpj]
  have hne : x ≠ w := by
    intro he
    rw [he] at hx1
    rw [hx1] at hw1
    exact hij hw1
  have hdisj := coreAssign_mem_same_lane _ [] (sortedPeriods_sorted_starts y _ hps)
    x w hxR hwR hne (by rw [hx2, hw2, hk])
  have hperiodi : ((assignLanes y ms).get ⟨i, hi⟩).period = (ms.get ⟨i, hi'⟩).period := by
    rw [hgi]
  have hperiodj : ((assignLanes y ms).get ⟨j, hj⟩).period = (ms.get ⟨j, hj'⟩).period := by
    rw [hgj]
  rw [hperiodi, hperiodj, hpi, hpj]
  rcases hdisj with h | h
  · left
    rw [hxe', hws'] at h
    exact decide_eq_true h
  · right
    rw [hwe', hxs'] at h
    exact decide_eq_true h

/-- C1 witness (Scenario A): movements `1818-1920` and `1920-1960` share
lane 0 and touch only at the boundary year 1920. -/
theorem assignLanes_same_lane_disjoint_witness :
    ((assignLanes 2025 scenarioA).get ⟨0, by decide⟩).lane =
      ((assignLanes 2025 scenarioA).get ⟨1, by decide⟩).lane ∧
    (jsLe (parsePeriod 2025 ((assignLanes 2025 scenarioA).get ⟨0, by decide⟩).period).stop
        (parsePeriod 2025 ((assignLanes 2025 scenarioA).get ⟨1, by decide⟩).period).start
        = true ∨
     jsLe (parsePeriod 2025 ((assignLanes 2025 scenarioA).get ⟨1, by decide⟩).period).stop
        (parsePeriod 2025 ((assignLanes 2025 scenarioA).get ⟨0, by decide⟩).period).start
        = true) := by
  have hp : ∀ m ∈ scenarioA, ∃ s e : ℚ, parsePeriod 2025 m.period = ⟨.num s, .num e⟩ := by
    intro m hm
    rw [scenarioA, List.mem_cons, List.mem_cons, List.mem_singleton] at hm
    rcases hm with rfl | rfl | rfl
    · exact ⟨1818, 1920, by decide⟩
    · exact ⟨1920, 1960, by decide⟩
    · exact ⟨1950, 1980, by decide⟩
  have hlaneeq : ((assignLanes 2025 scenarioA).get ⟨0, by decide⟩).lane =
      ((assignLanes 2025 scenarioA).get ⟨1, by decide⟩).lane := by decide
  exact ⟨hlaneeq, assignLanes_same_lane_disjoint 2025 scenarioA hp 0 1
    (by decide) (by decide) (by decide) hlaneeq⟩

/-! ### Claim C2: lane count equals the interval clique number -/

/-- Tagging commutes with mapping the payload. -/
theorem idxFrom_map_toQ (y : ℤ) : ∀ (ps : List String) (n : ℕ),
    (idxFrom n ps).map (toQ y) =
      idxFrom n (ps.map (fun s => (pqStart y s, pqStop y s))) := by
  intro ps
  induction ps with
  | nil => intro n; rfl
  | cons a t ih => intro n; simp [idxFrom, toQ, ih (n + 1)]

/-- Filtering a tagged list on the payload preserves the count. -/
theorem idxFrom_filter_length {α : Type} (f : α → Bool) :
    ∀ (l : List α) (n : ℕ),
    ((idxFrom n l).filter (fun a => f a.2)).length = (l.filter f).length := by
  intro l
  induction l with
  | nil => intro n; rfl
  | cons a t ih =>
    intro n
    rw [idxFrom]
    by_cases h : f a
    · rw [List.filter_cons_of_pos (by simpa using h), List.filter_cons_of_pos h]
      simp [ih (n + 1)]
    · rw [List.filter_cons_of_neg (by simpa using h), List.filter_cons_of_neg h]
      exact ih (n + 1)

/-- Filtering on the first component commutes with projecting it. -/
theorem filter_fst_map {α β : Type} (f : α → Bool) :
    ∀ (R : List (α × β)),
    ((R.filter (fun x => f x.1)).map Prod.fst) = (R.map Prod.fst).filter f := by
  intro R
  induction R with
  | nil => rfl
  | cons a t ih =>
    by_cases h : f a.1 = true
    · simp [List.filter_cons, h, ih]
    · simp [List.filter_cons, h, ih]

/-- Elements of `l.set k v` are `v` or elements of `l`. -/
theorem mem_set_sub {α : Type} : ∀ (l : List α) (k : ℕ) (v x : α),
    x ∈ l.set k v → x = v ∨ x ∈ l := by
  intro l
  induction l with
  | nil => intro k v x h; cases h
  | cons a t ih =>
    intro k v x h
    cases k with
    | zero =>
      rw [List.set_cons_zero] at h
      rcases List.mem_cons.mp h with h1 | h1
      · exact Or.inl h1
      · exact Or.inr (List.mem_cons_of_mem a h1)
    | succ k =>
      rw [List.set_cons_succ] at h
      rcases List.mem_cons.mp h with h1 | h1
      · exact Or.inr (by rw [h1]; exact List.mem_cons_self a t)
      · rcases ih k v x h1 with h2 | h2
        · exact Or.inl h2
        · exact Or.inr (List.mem_cons_of_mem a h2)

/-- Setting an index to a fresh value keeps a duplicate-free list
duplicate-free. -/
theorem nodup_set_of_not_mem : ∀ (l : List ℕ) (k v : ℕ),
    l.Nodup → v ∉ l → (l.set k v).Nodup := by
  intro l
  induction l with
  | nil => intro k v _ _; simp
  | cons a t ih =>
    intro k v hnd hv
    have hna : a ∉ t := (List.nodup_cons.mp hnd).1
    have hnt : t.Nodup := (List.nodup_cons.mp hnd).2
    cases k with
    | zero =>
      rw [List.set_cons_zero, List.nodup_cons]
      exact ⟨fun hvt => hv (List.mem_cons_of_mem a hvt), hnt⟩
    | succ k =>
      rw [List.set_cons_succ, List.nodup_cons]
      constructor
      · intro hmem
        rcases mem_set_sub t k v a hmem with h | h
        · exact hv (by rw [← h]; exact List.mem_cons_self a t)
        · exact hna h
      · exact ih k v hnt (fun hvt => hv (List.mem_cons_of_mem a hvt))

/-- A duplicate-free list of naturals below `n` has at most `n` elements. -/
theorem length_le_of_nodup_lt (l : List ℕ) (n : ℕ) (hnd : l.Nodup)
    (hb : ∀ x ∈ l, x < n) : l.length ≤ n := by
  calc l.length = l.toFinset.card := (List.toFinset_card_of_nodup hnd).symm
    _ ≤ (Finset.range n).card := by
        apply Finset.card_le_card
        intro x hx
        rw [List.mem_toFinset] at hx
        rw [Finset.mem_range]
        exact hb x hx
    _ = n := Finset.card_range n

/-- A list of distinct-tagged entries of `U` that all satisfy `P` is no
longer than the `P`-filtered `U`. -/
theorem length_le_filter_of_witnesses (U W : List (ℕ × ℚ × ℚ))
    (P : ℕ × ℚ × ℚ → Bool) (hnd : (W.map Prod.fst).Nodup)
    (hsub : ∀ x ∈ W, x ∈ U ∧ P x = true) :
    W.length ≤ (U.filter P).length := by
  have hndW : W.Nodup := hnd.of_map Prod.fst
  calc W.length = W.toFinset.card := (List.toFinset_card_of_nodup hndW).symm
    _ ≤ (U.filter P).toFinset.card := by
        apply Finset.card_le_card
        intro z hz
        rw [List.mem_toFinset] at hz ⊢
        exact List.mem_filter.mpr ⟨(hsub z hz).1, (hsub z hz).2⟩
    _ ≤ (U.filter P).length := List.toFinset_card_le _

/-- Whether the half-open interval of a tagged parsed entry contains `p`. -/
def containsPt (p : ℚ) (a : ℕ × ℚ × ℚ) : Bool :=
  decide (a.2.1 ≤ p) && decide (p < a.2.2)

/-- The clique count of the movements is the `containsPt` count over the
sorted tagged entries fed to the core scan. -/
theorem cliqueCount_eq_sorted (y : ℤ) (ms : List Movement) (p : ℚ) :
    cliqueCount y ms p =
      (((sortedPeriods y (ms.map (fun m => m.period))).map (toQ y)).filter
        (containsPt p)).length := by
  have h1 : cliqueCount y ms p =
      (((ms.map (fun m => m.period)).map (fun s => (pqStart y s, pqStop y s))).filter
        (fun q => decide (q.1 ≤ p) && decide (p < q.2))).length := by
    rw [cliqueCount, List.map_map]
    rfl
  have h2 := idxFrom_filter_length
    (fun q : ℚ × ℚ => decide (q.1 ≤ p) && decide (p < q.2))
    ((ms.map (fun m => m.period)).map (fun s => (pqStart y s, pqStop y s))) 0
  have h3 := idxFrom_map_toQ y (ms.map (fun m => m.period)) 0
  have hperm : List.Perm
      (((sortedPeriods y (ms.map (fun m => m.period))).map (toQ y)).filter (containsPt p))
      (((idxFrom 0 (ms.map (fun m => m.period))).map (toQ y)).filter (containsPt p)) := by
    refine List.Perm.filter _ ?_
    refine List.Perm.map _ ?_
    rw [sortedPeriods]
    exact sortLE_perm _ _
  rw [h1, ← h2, hperm.length_eq, h3]
  rfl

/-- `numLanes` as a function of the period list. -/
theorem numLanes_eq_ofPs (y : ℤ) (ms : List Movement) :
    numLanes y ms = numLanesOfPs y (ms.map (fun m => m.period)) := rfl

/-- C2 upper half: no point is contained in more intervals than there are
lanes. -/
theorem cliqueCount_le_numLanes (y : ℤ) (ms : List Movement)
    (hps : ∀ s ∈ ms.map (fun m => m.period), ∃ a b : ℚ,
      parsePeriod y s = ⟨.num a, .num b⟩)
    (p : ℚ) : cliqueCount y ms p ≤ numLanes y ms := by
  have hnum : numLanes y ms =
      (coreAssign ((sortedPeriods y (ms.map (fun m => m.period))).map (toQ y)) []).2.length :=
    (numLanes_eq_ofPs y ms).trans (laneMap_eq_core y (ms.map (fun m => m.period)) hps).2
  rw [cliqueCount_eq_sorted, hnum]
  have hshape := filter_fst_map (containsPt p)
    (coreAssign ((sortedPeriods y (ms.map (fun m => m.period))).map (toQ y)) []).1
  rw [coreAssign_map_fst] at hshape
  have hWlen : (((coreAssign ((sortedPeriods y (ms.map (fun m => m.period))).map (toQ y))
        []).1.filter (fun x => containsPt p x.1)).length) =
      (((sortedPeriods y (ms.map (fun m => m.period))).map (toQ y)).filter
        (containsPt p)).length := by
    rw [← hshape, List.length_map]
  rw [← hWlen]
  have hpwd := (coreAssign_pairwise
    ((sortedPeriods y (ms.map (fun m => m.period))).map (toQ y)) []
    (sortedPeriods_sorted_starts y (ms.map (fun m => m.period)) hps)).filter
    (fun x => containsPt p x.1)
  have hlanedist : ((coreAssign ((sortedPeriods y (ms.map (fun m => m.period))).map
      (toQ y)) []).1.filter (fun x => containsPt p x.1)).Pairwise
      (fun x w => x.2 ≠ w.2) := by
    refine hpwd.imp_of_mem ?_
    intro x w hx hw hrel heq
    have hcx := (List.mem_filter.mp hx).2
    have hcw := (List.mem_filter.mp hw).2
    rw [containsPt, Bool.and_eq_true, decide_eq_true_eq, decide_eq_true_eq] at hcx hcw
    have := hrel heq
    linarith [hcx.1, hcx.2, hcw.1, hcw.2]
  have hnodup : (((coreAssign ((sortedPeriods y (ms.map (fun m => m.period))).map
      (toQ y)) []).1.filter (fun x => containsPt p x.1)).map (fun x => x.2)).Nodup :=
    List.pairwise_map.mpr hlanedist
  have hbound : ∀ k ∈ ((coreAssign ((sortedPeriods y (ms.map (fun m => m.period))).map
      (toQ y)) []).1.filter (fun x => containsPt p x.1)).map (fun x => x.2),
      k < (coreAssign ((sortedPeriods y (ms.map (fun m => m.period))).map (toQ y))
        []).2.length := by
    intro k hk
    rw [List.mem_map] at hk
    obtain ⟨x, hxW, rfl⟩ := hk
    exact coreAssign_lane_lt _ [] x (List.mem_of_mem_filter hxW)
  have hfin := length_le_of_nodup_lt _ _ hnodup hbound
  rw [List.length_map] at hfin
  exact hfin

/-- C2 lower half, by induction over the scan.  `U` is the full tagged entry
list; `own` tracks, per open lane, the entry whose end-year the lane
currently records.  Whenever the scan opens a new lane, the opener's start
is contained in the intervals of all current lane owners and of the opener
itself, so the lane count never exceeds the best clique count. -/
theorem coreAssign_le_clique (U : List (ℕ × ℚ × ℚ)) :
    ∀ (L : List (ℕ × ℚ × ℚ)) (lanes : List ℚ) (own : List (ℕ × ℚ × ℚ)),
    L.Pairwise (fun a b => a.2.1 ≤ b.2.1) →
    (∀ a ∈ L, a ∈ U) →
    (L.map Prod.fst).Nodup →
    (∀ a ∈ L, a.2.1 < a.2.2) →
    own.length = lanes.length →
    (own.map Prod.fst).Nodup →
    (∀ o ∈ own, o ∈ U) →
    (∀ (k : ℕ) (hk : k < lanes.length) (hko : k < own.length),
      (own.get ⟨k, hko⟩).2.2 = lanes.get ⟨k, hk⟩) →
    (∀ o ∈ own, ∀ b ∈ L, o.2.1 ≤ b.2.1) →
    (∀ o ∈ own, o.1 ∉ L.map Prod.fst) →
    ∃ p : ℚ, (coreAssign L lanes).2.length ≤
      max lanes.length ((U.filter (containsPt p)).length) := by
  intro L
  induction L with
  | nil =>
    intro lanes own _ _ _ _ _ _ _ _ _ _
    exact ⟨0, by rw [coreAssign]; exact le_max_left _ _⟩
  | cons a rest ih =>
    intro lanes own hsort hU hndL hstrict hlen hndO hOU halign hfut hdisj
    have hheadU : a ∈ U := hU a (List.mem_cons_self a rest)
    have hheadst : ∀ b ∈ rest, a.2.1 ≤ b.2.1 := (List.pairwise_cons.mp hsort).1
    have hrestsort := (List.pairwise_cons.mp hsort).2
    have hrestU : ∀ b ∈ rest, b ∈ U := fun b hb => hU b (List.mem_cons_of_mem a hb)
    have hndrest : (rest.map Prod.fst).Nodup := by
      rw [List.map_cons] at hndL
      exact (List.nodup_cons.mp hndL).2
    have hanotrest : a.1 ∉ rest.map Prod.fst := by
      rw [List.map_cons] at hndL
      exact (List.nodup_cons.mp hndL).1
    have hreststrict : ∀ b ∈ rest, b.2.1 < b.2.2 :=
      fun b hb => hstrict b (List.mem_cons_of_mem a hb)
    have hanotown : a.1 ∉ own.map Prod.fst := by
      intro hmem
      rw [List.mem_map] at hmem
      obtain ⟨o, ho, hoa⟩ := hmem
      exact hdisj o ho (by rw [hoa, List.map_cons]; exact List.mem_cons_self _ _)
    rw [coreAssign]
    cases hf : findLaneQ lanes a.2.1 with
    | some k =>
      simp only [hf]
      have hk : k < lanes.length := findLaneQ_some_lt lanes a.2.1 k hf
      have hko : k < own.length := by omega
      have h1 : (own.set k a).length = (lanes.set k a.2.2).length := by simp [hlen]
      have h2 : ((own.set k a).map Prod.fst).Nodup := by
        rw [List.map_set]
        exact nodup_set_of_not_mem _ k a.1 hndO hanotown
      have h3 : ∀ o ∈ own.set k a, o ∈ U := by
        intro o ho
        rcases mem_set_sub own k a o ho with h | h
        · rw [h]; exact hheadU
        · exact hOU o h
      have h4 : ∀ (j : ℕ) (hj : j < (lanes.set k a.2.2).length)
          (hjo : j < (own.set k a).length),
          ((own.set k a).get ⟨j, hjo⟩).2.2 = (lanes.set k a.2.2).get ⟨j, hj⟩ := by
        intro j hj hjo
        by_cases hkk : j = k
        · subst hkk
          rw [show ((own.set j a).get ⟨j, hjo⟩) = a by simp [List.getElem_set_self],
            show ((lanes.set j a.2.2).get ⟨j, hj⟩) = a.2.2 by simp [List.getElem_set_self]]
        · have hj' : j < lanes.length := by simpa using hj
          have hjo' : j < own.length := by simpa using hjo
          rw [show ((own.set k a).get ⟨j, hjo⟩) = own.get ⟨j, hjo'⟩ by
              simp [List.getElem_set_ne (Ne.symm hkk)],
            show ((lanes.set k a.2.2).get ⟨j, hj⟩) = lanes.get ⟨j, hj'⟩ by
              simp [List.getElem_set_ne (Ne.symm hkk)]]
          exact halign j hj' hjo'
      have h5 : ∀ o ∈ own.set k a, o ∈ U := h3
      have h6 : ∀ o ∈ own.set k a, ∀ b ∈ rest, o.2.1 ≤ b.2.1 := by
        intro o ho b hb
        rcases mem_set_sub own k a o ho with h | h
        · rw [h]; exact hheadst b hb
        · exact hfut o h b (List.mem_cons_of_mem a hb)
      have h7 : ∀ o ∈ own.set k a, o.1 ∉ rest.map Prod.fst := by
        intro o ho
        rcases mem_set_sub own k a o ho with h | h
        · rw [h]; exact hanotrest
        · intro hmem
          apply hdisj o h
          rw [List.map_cons]
          exact List.mem_cons_of_mem _ hmem
      obtain ⟨p, hp⟩ := ih (lanes.set k a.2.2) (own.set k a) hrestsort hrestU hndrest
        hreststrict h1 h2 h3 h4 h6 h7
      refine ⟨p, ?_⟩
      rw [List.length_set] at hp
      exact hp
    | none =>
      simp only [hf]
      have hwit : lanes.length + 1 ≤ (U.filter (containsPt a.2.1)).length := by
        have h := length_le_filter_of_witnesses U (a :: own) (containsPt a.2.1) ?_ ?_
        · simpa [hlen] using h
        · rw [List.map_cons]
          exact List.nodup_cons.mpr ⟨hanotown, hndO⟩
        · intro x hx
          rcases List.mem_cons.mp hx with h | h
          · subst h
            refine ⟨hheadU, ?_⟩
            rw [containsPt, Bool.and_eq_true]
            exact ⟨decide_eq_true (le_refl _),
              decide_eq_true (hstrict x (List.mem_cons_self x rest))⟩
          · refine ⟨hOU x h, ?_⟩
            obtain ⟨k0, hk0, hgk0⟩ := List.mem_iff_getElem.mp h
            have hk0l : k0 < lanes.length := by omega
            have halk := halign k0 hk0l hk0
            have hxe : x.2.2 = lanes.get ⟨k0, hk0l⟩ := by
              rw [← halk]
              have : own.get ⟨k0, hk0⟩ = x := hgk0
              rw [this]
            have hlt := findLaneQ_none lanes a.2.1 hf k0 hk0l
            rw [containsPt, Bool.and_eq_true]
            exact ⟨decide_eq_true (hfut x h a (List.mem_cons_self a rest)),
              decide_eq_true (by rw [hxe]; exact hlt)⟩
      have h1 : (own ++ [a]).length = (lanes ++ [a.2.2]).length := by simp [hlen]
      have h2 : ((own ++ [a]).map Prod.fst).Nodup := by
        rw [List.map_append, List.nodup_append]
        refine ⟨hndO, by simp, ?_⟩
        intro x hx
        simp only [List.map_cons, List.map_nil, List.mem_singleton]
        intro hxa
        rw [hxa] at hx
        exact hanotown hx
      have h3 : ∀ o ∈ own ++ [a], o ∈ U := by
        intro o ho
        rcases List.mem_append.mp ho with h | h
        · exact hOU o h
        · rw [List.mem_singleton.mp h]; exact hheadU
      have h4 : ∀ (j : ℕ) (hj : j < (lanes ++ [a.2.2]).length)
          (hjo : j < (own ++ [a]).length),
          ((own ++ [a]).get ⟨j, hjo⟩).2.2 = (lanes ++ [a.2.2]).get ⟨j, hj⟩ := by
        intro j hj hjo
        by_cases hkl : j < lanes.length
        · have hkol : j < own.length := by omega
          rw [show ((own ++ [a]).get ⟨j, hjo⟩) = own.get ⟨j, hkol⟩ by
              simp [List.getElem_append_left hkol],
            show ((lanes ++ [a.2.2]).get ⟨j, hj⟩) = lanes.get ⟨j, hkl⟩ by
              simp [List.getElem_append_left hkl]]
          exact halign j hkl hkol
        · have hkeq : j = lanes.length := by
            simp only [List.length_append, List.length_cons, List.length_nil] at hj
            omega
          subst hkeq
          have hA : (own ++ [a]).get ⟨lanes.length, hjo⟩ = a := by
            have hol : own.length ≤ lanes.length := le_of_eq hlen
            rw [List.get_eq_getElem, List.getElem_append_right hol]
            simp [show lanes.length - own.length = 0 by omega]
          have hB : (lanes ++ [a.2.2]).get ⟨lanes.length, hj⟩ = a.2.2 := by
            simp
          rw [hA, hB]
      have h6 : ∀ o ∈ own ++ [a], ∀ b ∈ rest, o.2.1 ≤ b.2.1 := by
        intro o ho b hb
        rcases List.mem_append.mp ho with h | h
        · exact hfut o h b (List.mem_cons_of_mem a hb)
        · rw [List.mem_singleton.mp h]; exact hheadst b hb
      have h7 : ∀ o ∈ own ++ [a], o.1 ∉ rest.map Prod.fst := by
        intro o ho
        rcases List.mem_append.mp ho with h | h
        · intro hmem
          apply hdisj o h
          rw [List.map_cons]
          exact List.mem_cons_of_mem _ hmem
        · rw [List.mem_singleton.mp h]; exact hanotrest
      obtain ⟨pr, hpr⟩ := ih (lanes ++ [a.2.2]) (own ++ [a]) hrestsort hrestU hndrest
        hreststrict h1 h2 h3 h4 h6 h7
      rw [List.length_append, List.length_cons, List.length_nil] at hpr
      rcases le_max_iff.mp hpr with hc | hc
      · refine ⟨a.2.1, ?_⟩
        refine le_max_of_le_right ?_
        calc (coreAssign rest (lanes ++ [a.2.2])).2.length
            ≤ lanes.length + 1 := by simpa using hc
          _ ≤ _ := hwit
      · exact ⟨pr, le_max_of_le_right hc⟩

/-- Keys of a tagged list are at least the base index. -/
theorem idxFrom_fst_ge {α : Type} : ∀ (l : List α) (n i : ℕ),
    i ∈ (idxFrom n l).map Prod.fst → n ≤ i := by
  intro l
  induction l with
  | nil => intro n i h; cases h
  | cons a t ih =>
    intro n i h
    rw [idxFrom, List.map_cons] at h
    rcases List.mem_cons.mp h with h1 | h1
    · omega
    · have := ih (n + 1) i h1
      omega

/-- Keys of a tagged list are distinct. -/
theorem idxFrom_fst_nodup {α : Type} : ∀ (l : List α) (n : ℕ),
    ((idxFrom n l).map Prod.fst).Nodup := by
  intro l
  induction l with
  | nil => intro n; simp [idxFrom]
  | cons a t ih =>
    intro n
    rw [idxFrom, List.map_cons, List.nodup_cons]
    refine ⟨?_, ih (n + 1)⟩
    intro hmem
    have := idxFrom_fst_ge t (n + 1) n hmem
    omega

/-- C2 (amended).  When every period parses to finite years with start
strictly before end, the number of lanes `assignLanes` opens equals the
interval graph's clique number: some point is contained in exactly
`numLanes` of the half-open `[start, end)` intervals, and no point is
contained in more. -/
theorem assignLanes_lane_count_minimal (y : ℤ) (ms : List Movement)
    (hp : ∀ m ∈ ms, ∃ s e : ℚ, parsePeriod y m.period = ⟨.num s, .num e⟩ ∧ s < e) :
    ∃ p : ℚ, cliqueCount y ms p = numLanes y ms ∧
      ∀ q : ℚ, cliqueCount y ms q ≤ numLanes y ms := by
  have hps : ∀ s ∈ ms.map (fun m => m.period), ∃ a b : ℚ,
      parsePeriod y s = ⟨.num a, .num b⟩ := by
    intro s hs
    rw [List.mem_map] at hs
    obtain ⟨m, hm, rfl⟩ := hs
    obtain ⟨a, b, hab, _⟩ := hp m hm
    exact ⟨a, b, hab⟩
  have hupper : ∀ q : ℚ, cliqueCount y ms q ≤ numLanes y ms :=
    fun q => cliqueCount_le_numLanes y ms hps q
  have hsort := sortedPeriods_sorted_starts y (ms.map (fun m => m.period)) hps
  have hLnd : (((sortedPeriods y (ms.map (fun m => m.period))).map (toQ y)).map
      Prod.fst).Nodup := by
    rw [List.map_map, (rfl : (Prod.fst ∘ toQ y) = (Prod.fst : ℕ × String → ℕ))]
    have hperm := ((sortLE_perm
      (fun a b => sortKeyLe (parsePeriod y a.2).start (parsePeriod y b.2).start)
      (idxFrom 0 (ms.map (fun m => m.period)))).map (Prod.fst : ℕ × String → ℕ))
    rw [sortedPeriods]
    exact hperm.nodup_iff.mpr (idxFrom_fst_nodup _ 0)
  have hstrict : ∀ a ∈ (sortedPeriods y (ms.map (fun m => m.period))).map (toQ y),
      a.2.1 < a.2.2 := by
    intro a ha
    obtain ⟨halt, has, hae⟩ := mem_sortedQ_char y _ a ha
    have hlt' : a.1 < ms.length := by simpa using halt
    obtain ⟨s, e, hab, hse⟩ := hp (ms.get ⟨a.1, hlt'⟩) (List.get_mem ms a.1 hlt')
    have hgd : (ms.map (fun m => m.period)).getD a.1 "" = (ms.get ⟨a.1, hlt'⟩).period := by
      rw [List.getD_eq_getElem _ "" halt]
      simp
    rw [has, hae, hgd, pqStart, pqStop, hab]
    exact hse
  obtain ⟨p, hplow⟩ := coreAssign_le_clique
    ((sortedPeriods y (ms.map (fun m => m.period))).map (toQ y))
    ((sortedPeriods y (ms.map (fun m => m.period))).map (toQ y)) [] []
    hsort (fun a ha => ha) hLnd hstrict rfl (by simp) (by intro o ho; cases ho)
    (by intro k hk; exact absurd hk (by simp)) (by intro o ho; cases ho)
    (by intro o ho; cases ho)
  have hnum : numLanes y ms =
      (coreAssign ((sortedPeriods y (ms.map (fun m => m.period))).map (toQ y)) []).2.length :=
    (numLanes_eq_ofPs y ms).trans (laneMap_eq_core y (ms.map (fun m => m.period)) hps).2
  have hlow : numLanes y ms ≤ cliqueCount y ms p := by
    rw [hnum, cliqueCount_eq_sorted]
    simpa using hplow
  exact ⟨p, le_antisymm (hupper p) hlow, hupper⟩

/-- Movement with an empty half-open interval (`start = end`). -/
def movEmptyIv : Movement :=
  { id := "e", title := "E", description := "", period := "1920-1920",
    connections := [], lane := none }

/-- C2 counterexample: a single movement with period `"1920-1920"` opens one
lane, but its half-open interval `[1920, 1920)` is empty, so no point is
contained in `numLanes = 1` intervals: the unrestricted claim fails for
empty intervals (`start = end`), which the code still places in a lane. -/
theorem assignLanes_lane_count_minimal_cex :
    numLanes 2025 [movEmptyIv] = 1 ∧
    ¬ ∃ p : ℚ, cliqueCount 2025 [movEmptyIv] p = numLanes 2025 [movEmptyIv] := by
  have h1 : numLanes 2025 [movEmptyIv] = 1 := by decide
  refine ⟨h1, ?_⟩
  rintro ⟨p, hp⟩
  have h0 : cliqueCount 2025 [movEmptyIv] p = 0 := by
    have hs : pqStart 2025 movEmptyIv.period = 1920 := by decide
    have he : pqStop 2025 movEmptyIv.period = 1920 := by decide
    rw [cliqueCount, List.map_cons, List.map_nil, List.filter_cons_of_neg, List.filter_nil]
    · rfl
    · rw [hs, he]
      simp only [Bool.and_eq_true, decide_eq_true_eq, not_and]
      intro hle hlt
      linarith
  rw [h0, h1] at hp
  exact absurd hp (by decide)

/-- C2 witness (Scenario A): the three movements `1818-1920`, `1920-1960`,
`1950-1980` use 2 lanes, and 2 is exactly the best point-coverage of their
intervals. -/
theorem assignLanes_lane_count_minimal_witness :
    numLanes 2025 scenarioA = 2 ∧
    ∃ p : ℚ, cliqueCount 2025 scenarioA p = numLanes 2025 scenarioA ∧
      ∀ q : ℚ, cliqueCount 2025 scenarioA q ≤ numLanes 2025 scenarioA := by
  refine ⟨by decide, ?_⟩
  apply assignLanes_lane_count_minimal 2025 scenarioA
  intro m hm
  rw [scenarioA, List.mem_cons, List.mem_cons, List.mem_singleton] at hm
  rcases hm with rfl | rfl | rfl
  · exact ⟨1818, 1920, by decide, by norm_num⟩
  · exact ⟨1920, 1960, by decide, by norm_num⟩
  · exact ⟨1950, 1980, by decide, by norm_num⟩
